/-
  Verification of the fossil-jellyfish auditable memory chain
  (src/code/logic/jellyfish.c) against its specification.

  Shallow embedding conventions:
  * The fixed-size block array `memory` of a chain is modelled as a
    `List`, understood as the MAX_MEM-slot array of the source; loops
    over slots become structural recursion or fuel-indexed index loops.
  * C strings are `List Char` (the terminating NUL is the end of the
    list); `strncmp`-style truncated comparison is `strncmpEq`.
  * `float` / `double` arithmetic is modelled exactly over an ordered
    field: `ℚ` where executability is wanted, `ℝ` for the decay engine,
    whose factor `pow(0.5, age/half_life)` is a real power.  Decimal
    constants such as 0.05f are the exact rationals they denote.
  * Machine integers are `Nat`/`Int` with explicit `% 2 ^ w` where the
    source can overflow (usage_count, delta_ms, block age).
  * The block hash `fossil_jellyfish_hash` mixes a microsecond nonce and
    an environment-derived salt, so it is not a function of its inputs;
    `learn` therefore takes the produced hash bytes (and the current
    `time(NULL)` value) as explicit parameters.

  The struct definitions (fossil/ai/jellyfish.h) are not part of the
  provided sources; the data model below is modelled from the spec,
  section 3 (field list and widths) with MAX_MEM = 256 as the spec
  suggests.  All operations are translated from src/code/logic/jellyfish.c.
-/
import Mathlib

set_option maxRecDepth 8000
set_option maxHeartbeats 2000000

namespace Jellyfish

/-- Modelled from the spec: capacity of the `input` field in bytes
    (FOSSIL_JELLYFISH_INPUT_SIZE; the header defining it is not in src/). -/
def INPUT_SIZE : Nat := 128

/-- Modelled from the spec: capacity of the `output` field in bytes
    (FOSSIL_JELLYFISH_OUTPUT_SIZE; the header defining it is not in src/). -/
def OUTPUT_SIZE : Nat := 128

/-- Modelled from the spec: number of block slots of a chain
    (FOSSIL_JELLYFISH_MAX_MEM, spec section 3: fixed capacity, e.g. 256). -/
def MAX_MEM : Nat := 256

/-- FOSSIL_JELLYFISH_HASH_SIZE: 32 bytes (spec section 3). -/
def HASH_SIZE : Nat := 32

/-- FOSSIL_DEVICE_ID_SIZE: 16 bytes (spec section 3). -/
def DEVICE_ID_SIZE : Nat := 16

/-- FOSSIL_SIGNATURE_SIZE: 32 bytes (spec section 3). -/
def SIGNATURE_SIZE : Nat := 32

/-- A memory block (spec section 3, struct fossil_jellyfish_block).
    `confidence` is a `float` in the source, modelled over an ordered
    field `α` (`ℚ` or `ℝ`). `valid` and `immutable` are C `int`s. -/
structure Block (α : Type) where
  input : List Char
  output : List Char
  hash : List Nat
  timestamp : Nat
  delta_ms : Nat
  duration_ms : Nat
  valid : Int
  confidence : α
  usage_count : Nat
  immutable : Int
  device_id : List Nat
  signature : List Nat
deriving DecidableEq, Repr

/-- The all-zero block: what `memset(block, 0, sizeof *block)` leaves
    behind (empty strings, zero bytes, zero counters). -/
def zeroBlock {α : Type} [Zero α] : Block α where
  input := []
  output := []
  hash := List.replicate HASH_SIZE 0
  timestamp := 0
  delta_ms := 0
  duration_ms := 0
  valid := 0
  confidence := 0
  usage_count := 0
  immutable := 0
  device_id := List.replicate DEVICE_ID_SIZE 0
  signature := List.replicate SIGNATURE_SIZE 0

/-- A chain (spec section 3, struct fossil_jellyfish_chain): the MAX_MEM
    block array (as a list), the in-use count and the header metadata. -/
structure Chain (α : Type) where
  memory : List (Block α)
  count : Nat
  device_id : List Nat
  created_at : Nat
  updated_at : Nat
deriving DecidableEq, Repr

variable {α : Type} [LinearOrderedField α]

/-- fossil_jellyfish_init: zero `count` and the whole memory array.
    The header fields are left as they are (the source memsets only
    `chain->memory`). -/
def fossil_jellyfish_init (c : Chain α) : Chain α :=
  { c with count := 0, memory := List.replicate MAX_MEM zeroBlock }

/-- `strncmp(a, b, n) == 0` for NUL-terminated strings: equality of the
    first `n` characters, where the end of the list is the NUL. -/
def strncmpEq : Nat → List Char → List Char → Bool
  | 0, _, _ => true
  | _ + 1, [], [] => true
  | _ + 1, [], _ :: _ => false
  | _ + 1, _ :: _, [] => false
  | n + 1, a :: as, b :: bs => a == b && strncmpEq n as bs

/-- The truncated-compare match of `learn` step 1:
    `strncmp(block->input, input, INPUT_SIZE) == 0 &&
     strncmp(block->output, output, OUTPUT_SIZE) == 0`. -/
def matchesPair (b : Block α) (i o : List Char) : Bool :=
  strncmpEq INPUT_SIZE b.input i && strncmpEq OUTPUT_SIZE b.output o

/-- The reinforcement of `learn` step 1 on the matched block:
    confidence += 0.1 capped at 1.0, usage_count += 1 as uint32,
    timestamp refreshed. -/
def reinforcedBlock (b : Block α) (now : Nat) : Block α :=
  { b with
      confidence :=
        if 1 < b.confidence + 1 / 10 then 1 else b.confidence + 1 / 10,
      usage_count := (b.usage_count + 1) % 2 ^ 32,
      timestamp := now }

/-- Step 1 of fossil_jellyfish_learn: scan all MAX_MEM slots for a valid
    block with the same truncated (input, output); reinforce the first
    hit.  Returns `none` when no valid block matches. -/
def reinforceGo (i o : List Char) (now : Nat) :
    List (Block α) → Option (List (Block α))
  | [] => none
  | b :: rest =>
    if b.valid ≠ 0 ∧ matchesPair b i o then
      some (reinforcedBlock b now :: rest)
    else (reinforceGo i o now rest).map (b :: ·)

/-- The block written by `learn` into a reused slot: truncated copies of
    the strings, fresh timestamp, delta_ms from the nearest previous
    valid block's timestamp `prev` (0 when there is none), confidence
    1.0, zeroed device_id and signature, and the produced hash bytes.
    The source never touches the slot's `immutable` flag, so the old
    flag `oldImmutable` survives. -/
def admittedBlock (i o : List Char) (now : Nat) (h : List Nat)
    (prev : Nat) (oldImmutable : Int) : Block α where
  input := i.take (INPUT_SIZE - 1)
  output := o.take (OUTPUT_SIZE - 1)
  hash := h
  timestamp := now
  delta_ms := if prev ≠ 0 then (((now + 2 ^ 64 - prev) % 2 ^ 64) * 1000) % 2 ^ 32 else 0
  duration_ms := 0
  valid := 1
  confidence := 1
  usage_count := 0
  immutable := oldImmutable
  device_id := List.replicate DEVICE_ID_SIZE 0
  signature := List.replicate SIGNATURE_SIZE 0

/-- Step 2 of fossil_jellyfish_learn: find the first slot with
    valid = 0 (scanning all MAX_MEM slots) and initialize it.  The
    accumulator `prev` is the timestamp of the nearest valid block
    before the current slot (the source's backwards scan for prev_ts). -/
def admitGo (i o : List Char) (now : Nat) (h : List Nat) :
    Nat → List (Block α) → Option (List (Block α))
  | _, [] => none
  | prev, b :: rest =>
    if b.valid = 0 then
      some (admittedBlock i o now h prev b.immutable :: rest)
    else (admitGo i o now h b.timestamp rest).map (b :: ·)

/-- The keep condition of fossil_jellyfish_cleanup:
    `block->valid && block->confidence >= 0.05f`. -/
def keepB (b : Block α) : Bool :=
  (b.valid != 0) && decide ((1 / 20 : α) ≤ b.confidence)

/-- What cleanup leaves at a slot of the tail region: a kept block's
    stale copy stays in place, a removed block's slot was memset. -/
def trB (b : Block α) : Block α := if keepB b then b else zeroBlock

/-- The keep condition as the spec's claim words it (valid = 1 rather
    than valid nonzero; the two agree on chains whose valid flags are
    boolean). -/
def keepClaim (b : Block α) : Bool :=
  (b.valid == 1) && decide ((1 / 20 : α) ≤ b.confidence)

/-- The compaction loop of fossil_jellyfish_cleanup, operating in place
    on the memory array: `src` walks every slot, kept blocks are copied
    down to `dst` (the source skips the copy when dst == src), removed
    slots are memset to zero.  `fuel` counts the remaining iterations
    (MAX_MEM - src for the source's loop). -/
def cleanupAux : Nat → Nat → Nat → List (Block α) → List (Block α) × Nat
  | 0, _, dst, mem => (mem, dst)
  | fuel + 1, src, dst, mem =>
    let b := mem.getD src zeroBlock
    if keepB b then
      cleanupAux fuel (src + 1) (dst + 1)
        (if dst = src then mem else mem.set dst b)
    else
      cleanupAux fuel (src + 1) dst (mem.set src zeroBlock)

/-- fossil_jellyfish_cleanup: stable in-place compaction of the MAX_MEM
    array keeping blocks with valid and confidence >= 0.05; `count`
    becomes the number of kept blocks. -/
def fossil_jellyfish_cleanup (c : Chain α) : Chain α :=
  let r := cleanupAux c.memory.length 0 0 c.memory
  { c with memory := r.1, count := r.2 }

/-- fossil_jellyfish_learn: reinforce an existing (input, output) pair,
    else admit into the first invalid slot (bumping `count`
    unconditionally, as the source does), else cleanup and retry; if
    still full the admission is dropped (the cleaned chain remains). -/
def fossil_jellyfish_learn (c : Chain α) (i o : List Char) (now : Nat)
    (h : List Nat) : Chain α :=
  match reinforceGo i o now c.memory with
  | some mem => { c with memory := mem }
  | none =>
    match admitGo i o now h 0 c.memory with
    | some mem => { c with memory := mem, count := c.count + 1 }
    | none =>
      let c' := fossil_jellyfish_cleanup c
      match admitGo i o now h 0 c'.memory with
      | some mem => { c' with memory := mem, count := c'.count + 1 }
      | none => c'

/-- ASCII tolower, as the C default locale's tolower acts on the byte. -/
def asciiToLower (c : Char) : Char :=
  if 'A' ≤ c ∧ c ≤ 'Z' then Char.ofNat (c.toNat + 32) else c

/-- fossil_jellyfish_similarity: positional mismatch count over the
    common prefix (case-insensitive), plus one per leftover character on
    either side.  (The source's NULL check cannot arise here.) -/
def fossil_jellyfish_similarity : List Char → List Char → Nat
  | [], b => b.length
  | a, [] => a.length
  | x :: xs, y :: ys =>
    (if asciiToLower x = asciiToLower y then 0 else 1) +
      fossil_jellyfish_similarity xs ys

/-- The sentinel returned by reason when nothing matches. -/
def unknownOut : List Char := "Unknown".data

/-- The exact-match phase of fossil_jellyfish_reason over the first
    `count` blocks: first valid block whose input equals the query under
    truncated compare wins; its usage_count is bumped and, if its
    confidence is < 1.0, 0.05 is added (with no upper clamp, as in the
    source).  Returns the updated prefix and the winning output. -/
def reasonExactGo (q : List Char) :
    List (Block α) → Option (List (Block α) × List Char)
  | [] => none
  | b :: rest =>
    if b.valid ≠ 0 ∧ strncmpEq INPUT_SIZE b.input q then
      some (({ b with
        usage_count := (b.usage_count + 1) % 2 ^ 32,
        confidence :=
          if b.confidence < 1 then b.confidence + 1 / 20 else b.confidence }
        :: rest), b.output)
    else (reasonExactGo q rest).map (fun r => (b :: r.1, r.2))

/-- The fuzzy fallback loop of fossil_jellyfish_reason: best_score
    starts at 1000 and best_output at "Unknown"; a score of 0 returns
    that block's output immediately; otherwise a strictly smaller score
    updates the best; at the end the threshold
    `best_score > strlen(input)/2` forces "Unknown". -/
def fuzzyGo (q : List Char) : List (Block α) → Nat → List Char → List Char
  | [], best, out => if q.length / 2 < best then unknownOut else out
  | b :: rest, best, out =>
    if b.valid ≠ 0 then
      let s := fossil_jellyfish_similarity q b.input
      if s = 0 then b.output
      else if s < best then fuzzyGo q rest s b.output
      else fuzzyGo q rest best out
    else fuzzyGo q rest best out

/-- fossil_jellyfish_reason: exact scan over the first `count` blocks,
    then the fuzzy fallback.  Returns the answer and the (possibly
    mutated) chain: a successful exact match is a write. -/
def fossil_jellyfish_reason (c : Chain α) (q : List Char) :
    List Char × Chain α :=
  match reasonExactGo q (c.memory.take c.count) with
  | some r => (r.2, { c with memory := r.1 ++ c.memory.drop c.count })
  | none => (fuzzyGo q (c.memory.take c.count) 1000 unknownOut, c)

/-- The prune/dedupe removal `memmove`: shift blocks (i+1 .. count)
    down one slot; the slot at count-1 keeps its old (now duplicated)
    value, slots at and beyond count are untouched. -/
def removeShift (mem : List (Block α)) (i count : Nat) : List (Block α) :=
  mem.take i ++ (mem.drop (i + 1)).take (count - i - 1) ++ mem.drop (count - 1)

/-- The removal condition of fossil_jellyfish_prune_chain:
    `!block->valid || block->confidence < min_confidence`. -/
def pruneCond (m : α) (b : Block α) : Bool :=
  (b.valid == 0) || decide (b.confidence < m)

/-- The loop of fossil_jellyfish_prune_chain: while i < count, remove
    the block at i (shifting the rest down and decrementing count) when
    it is invalid or below min_confidence, else advance i. -/
def pruneAux (m : α) : Nat → Nat → Nat → List (Block α) → Nat →
    List (Block α) × Nat × Nat
  | 0, _, count, mem, pruned => (mem, count, pruned)
  | fuel + 1, i, count, mem, pruned =>
    if i < count then
      if pruneCond m (mem.getD i zeroBlock) then
        pruneAux m fuel i (count - 1) (removeShift mem i count) (pruned + 1)
      else
        pruneAux m fuel (i + 1) count mem pruned
    else (mem, count, pruned)

/-- fossil_jellyfish_prune_chain: returns the pruned chain and the
    number of removed blocks. -/
def fossil_jellyfish_prune_chain (c : Chain α) (m : α) : Chain α × Int :=
  if c.count = 0 then (c, 0)
  else
    let r := pruneAux m c.count 0 c.count c.memory 0
    ({ c with memory := r.1, count := r.2.1 }, (r.2.2 : Int))

/-- The duplicate test of fossil_jellyfish_deduplicate_chain:
    `strcmp` equality of both full strings. -/
def dupEq (a b : Block α) : Bool :=
  (a.input == b.input) && (a.output == b.output)

/-- Inner loop of deduplicate: for fixed i, remove later equal blocks
    at j (same memmove shift as prune). -/
def dedupeInner (i : Nat) : Nat → Nat → Nat → List (Block α) → Nat →
    List (Block α) × Nat × Nat
  | 0, _, count, mem, removed => (mem, count, removed)
  | fuel + 1, j, count, mem, removed =>
    if j < count then
      if dupEq (mem.getD i zeroBlock) (mem.getD j zeroBlock) then
        dedupeInner i fuel j (count - 1) (removeShift mem j count) (removed + 1)
      else
        dedupeInner i fuel (j + 1) count mem removed
    else (mem, count, removed)

/-- Outer loop of deduplicate over i. -/
def dedupeOuter : Nat → Nat → Nat → List (Block α) → Nat →
    List (Block α) × Nat × Nat
  | 0, _, count, mem, removed => (mem, count, removed)
  | fuel + 1, i, count, mem, removed =>
    if i < count then
      let r := dedupeInner i count (i + 1) count mem removed
      dedupeOuter fuel (i + 1) r.2.1 r.1 r.2.2
    else (mem, count, removed)

/-- fossil_jellyfish_deduplicate_chain: O(n^2) removal of later blocks
    with identical (input, output); returns the number removed. -/
def fossil_jellyfish_deduplicate_chain (c : Chain α) : Chain α × Int :=
  if c.count < 2 then (c, 0)
  else
    let r := dedupeOuter c.count 0 c.count c.memory 0
    ({ c with memory := r.1, count := r.2.1 }, (r.2.2 : Int))

/-- The swap of the trim sort: tmp = m i; m i = m j; m j = tmp. -/
def swapAt (mem : List (Block α)) (i j : Nat) : List (Block α) :=
  (mem.set i (mem.getD j zeroBlock)).set j (mem.getD i zeroBlock)

/-- Inner loop of the trim sort: for fixed i, swap whenever the block
    at j has strictly greater confidence than the block at i. -/
def innerSortGo (i count : Nat) : Nat → Nat → List (Block α) → List (Block α)
  | 0, _, mem => mem
  | fuel + 1, j, mem =>
    if j < count then
      innerSortGo i count fuel (j + 1)
        (if decide ((mem.getD i zeroBlock).confidence <
            (mem.getD j zeroBlock).confidence) then swapAt mem i j else mem)
    else mem

/-- Outer loop of the trim sort (descending selection by confidence). -/
def outerSortGo (count : Nat) : Nat → Nat → List (Block α) → List (Block α)
  | 0, _, mem => mem
  | fuel + 1, i, mem =>
    if i < count - 1 then
      outerSortGo count fuel (i + 1) (innerSortGo i count (count - (i + 1)) (i + 1) mem)
    else mem

/-- fossil_jellyfish_trim: sort the first `count` blocks by descending
    confidence and truncate `count` to max_blocks (the tail of the
    array is not cleared); returns the number removed. -/
def fossil_jellyfish_trim (c : Chain α) (maxBlocks : Nat) : Chain α × Int :=
  if c.count ≤ maxBlocks then (c, 0)
  else
    ({ c with
        memory := outerSortGo c.count c.count 0 c.memory,
        count := maxBlocks }, ((c.count - maxBlocks : Nat) : Int))

/-- The copy-down loop of fossil_jellyfish_chain_compact over the first
    `count` slots, keeping every valid block. -/
def compactAux (count : Nat) : Nat → Nat → Nat → Nat → List (Block α) →
    List (Block α) × Nat × Nat
  | 0, _, new, moved, mem => (mem, new, moved)
  | fuel + 1, i, new, moved, mem =>
    if i < count then
      if (mem.getD i zeroBlock).valid ≠ 0 then
        if i ≠ new then
          compactAux count fuel (i + 1) (new + 1) (moved + 1)
            (mem.set new (mem.getD i zeroBlock))
        else
          compactAux count fuel (i + 1) (new + 1) moved mem
      else
        compactAux count fuel (i + 1) new moved mem
    else (mem, new, moved)

/-- The zeroing loop of compact: memset slots new_index .. count. -/
def zeroFill (count : Nat) : Nat → Nat → List (Block α) → List (Block α)
  | 0, _, mem => mem
  | fuel + 1, k, mem =>
    if k < count then zeroFill count fuel (k + 1) (mem.set k zeroBlock)
    else mem

/-- fossil_jellyfish_chain_compact: stable compaction keeping all valid
    blocks of the first `count` slots, zeroing the freed tail up to the
    old count; returns the number of moved blocks. -/
def fossil_jellyfish_chain_compact (c : Chain α) : Chain α × Int :=
  let r := compactAux c.count c.count 0 0 0 c.memory
  ({ c with
      memory := zeroFill c.count c.count r.2.1 r.1,
      count := r.2.1 }, (r.2.2 : Int))

/-- fossil_jellyfish_block_age: 0 for a future timestamp, else the
    uint64 subtraction `now - timestamp` (mod 2^64, as the machine
    computes it). -/
def fossil_jellyfish_block_age (b : Block α) (now : Nat) : Nat :=
  if now < b.timestamp then 0 else (now - b.timestamp) % 2 ^ 64

/-- Per-block step of fossil_jellyfish_decay_confidence: invalid blocks
    are skipped; the age is `now - timestamp/1000` in signed seconds and
    non-positive ages are skipped; otherwise the confidence is
    multiplied by `0.5 ^ (age / half_life)` with the half-life clamped
    below at 1.0, clamped into the unit interval, and the block is
    demoted to invalid when the result drops below 0.05. -/
noncomputable def decayBlock (r : ℝ) (now : Nat) (b : Block ℝ) : Block ℝ :=
  if b.valid = 0 then b
  else
    let age : Int := (now : Int) - ((b.timestamp / 1000 : Nat) : Int)
    if age ≤ 0 then b
    else
      let conf := b.confidence * Real.rpow (1 / 2) ((age : ℝ) / max 1 r)
      let conf := max 0 (min conf 1)
      { b with confidence := conf, valid := if conf < 1 / 20 then 0 else b.valid }

/-- fossil_jellyfish_decay_confidence: no-op for an empty chain or a
    non-positive rate (the source returns before any work); otherwise
    applies `decayBlock` to each of the first `count` blocks and never
    compacts. -/
noncomputable def fossil_jellyfish_decay_confidence (c : Chain ℝ) (r : ℝ)
    (now : Nat) : Chain ℝ :=
  if c.count = 0 ∨ r ≤ 0 then c
  else
    { c with memory :=
        (c.memory.take c.count).map (decayBlock r now) ++ c.memory.drop c.count }

/-! ### Persistence codec

The `.fish` file format: `fossil_jellyfish_save` writes a textual
document and `fossil_jellyfish_load` parses one.  The file I/O itself
(fopen/fread/fwrite) is outside the model: `save` produces the byte
text and `load` consumes a given byte text.  Pointers into the buffer
become suffixes of the character list. -/

/-- The characters C `isspace` accepts in the default locale. -/
def isSpaceC (c : Char) : Bool :=
  c = ' ' || c = '\t' || c = '\n' || c = '\x0b' || c = '\x0c' || c = '\r'

/-- Skip leading whitespace (the `while (isspace(*p)) p++` idiom). -/
def dropSpaces (p : List Char) : List Char := p.dropWhile isSpaceC

/-- Consume an exact literal, or fail. -/
def matchLit (lit p : List Char) : Option (List Char) :=
  if lit.isPrefixOf p then some (p.drop lit.length) else none

/-- match_key_value: whitespace, `"key":`, whitespace, `"value"`. -/
def matchKeyValue (key val p : List Char) : Option (List Char) :=
  (matchLit ('"' :: key ++ ['"', ':']) (dropSpaces p)).bind fun p =>
    matchLit ('"' :: val ++ ['"']) (dropSpaces p)

/-- skip_key: whitespace then `"key":`. -/
def skipKey (key p : List Char) : Option (List Char) :=
  matchLit ('"' :: key ++ ['"', ':']) (dropSpaces p)

/-- skip_symbol: whitespace then the one expected character. -/
def skipSymbol (sym : Char) (p : List Char) : Option (List Char) :=
  match dropSpaces p with
  | c :: rest => if c = sym then some rest else none
  | [] => none

/-- skip_comma: advances past an optional comma; the pointer is left
    unchanged when no comma follows the whitespace (the source only
    moves `*ptr` on success and its result is ignored). -/
def skipComma (p : List Char) : List Char :=
  match dropSpaces p with
  | ',' :: rest => rest
  | _ => p

/-- skip_key_value: like match_key_value but the pointer is only moved
    on a full match (the loader ignores its result for `version`). -/
def skipKeyValue (key val p : List Char) : List Char :=
  match matchKeyValue key val p with
  | some rest => rest
  | none => p

/-- Hex digit value, as `%x` accepts it (both cases). -/
def hexVal (c : Char) : Option Nat :=
  if '0' ≤ c ∧ c ≤ '9' then some (c.toNat - 48)
  else if 'a' ≤ c ∧ c ≤ 'f' then some (c.toNat - 87)
  else if 'A' ≤ c ∧ c ≤ 'F' then some (c.toNat - 70)
  else none

/-- `sscanf(p, "%2x", &val)`: skip whitespace, then read one or two hex
    digits.  (The caller always advances the raw pointer by exactly 2,
    independently of what was consumed.) -/
def sscanf2x (p : List Char) : Option Nat :=
  match dropSpaces p with
  | c :: rest =>
    (hexVal c).bind fun v =>
      match rest with
      | d :: _ => match hexVal d with
        | some w => some (16 * v + w)
        | none => some v
      | [] => some v
  | [] => none

/-- The byte loop of parse_hex_field: `len` bytes, two characters each.
    On sscanf failure the source returns immediately, without writing
    the byte or advancing; the bytes parsed so far are already in the
    destination. -/
def hexBytesGo : Nat → List Char → List Nat → Bool × List Nat × List Char
  | 0, p, acc => (true, acc, p)
  | len + 1, p, acc =>
    match sscanf2x p with
    | some v => hexBytesGo len (p.drop 2) (acc ++ [v])
    | none => (false, acc, p)

/-- parse_hex_field: `"key":` then a quoted run of exactly `len` hex
    bytes.  Returns the success flag, the bytes written into the
    destination so far (a prefix of `len` on failure), and the rest of
    the buffer. -/
def parseHexField (key : List Char) (len : Nat) (p : List Char) :
    Bool × List Nat × List Char :=
  match skipKey key p with
  | none => (false, [], p)
  | some p =>
    match skipSymbol '"' p with
    | none => (false, [], p)
    | some p =>
      match hexBytesGo len p [] with
      | (true, bytes, p) =>
        match skipSymbol '"' p with
        | some p => (true, bytes, p)
        | none => (false, bytes, p)
      | (false, bytes, p) => (false, bytes, p)

/-- The copy loop of parse_string_field: read up to `max - 1`
    characters until a closing quote, dropping one backslash before an
    escaped character.  Fails (like the source) when the terminating
    quote is not reached; the characters copied so far are already in
    the destination. -/
def stringChars (maxLen : Nat) : List Char → List Char →
    Bool × List Char × List Char
  | p, acc =>
    match p with
    | [] => (false, acc, p)
    | '"' :: rest => (true, acc, rest)
    | c :: rest =>
      if acc.length < maxLen - 1 then
        if c = '\\' then
          match rest with
          | d :: rest' => stringChars maxLen rest' (acc ++ [d])
          | [] => (false, acc ++ [c], [])
        else stringChars maxLen rest (acc ++ [c])
      else (false, acc, p)
termination_by p _ => p.length

/-- parse_string_field: `"key":` then an opening quote and the copy
    loop.  `maxLen` is the destination capacity. -/
def parseStringField (key : List Char) (maxLen : Nat) (p : List Char) :
    Bool × List Char × List Char :=
  match skipKey key p with
  | none => (false, [], p)
  | some p =>
    match skipSymbol '"' p with
    | none => (false, [], p)
    | some p => stringChars maxLen p []

/-- A decimal digit run with optional sign, as strtoull/strtol accept
    it (no base prefix arises in this format).  Returns the signed
    value and the rest; fails when no digit was consumed. -/
def digitsGo : List Char → Nat → Nat → Nat × Nat × List Char
  | [], n, k => (n, k, [])
  | c :: rest, n, k =>
    if '0' ≤ c ∧ c ≤ '9' then digitsGo rest (10 * n + (c.toNat - 48)) (k + 1)
    else (n, k, c :: rest)

/-- strtol-family core: optional whitespace and sign, then digits. -/
def strtolCore (p : List Char) : Option (Int × List Char) :=
  let p := dropSpaces p
  let signed : Bool × List Char :=
    match p with
    | '-' :: rest => (true, rest)
    | '+' :: rest => (false, rest)
    | _ => (false, p)
  match digitsGo signed.2 0 0 with
  | (_, 0, _) => none
  | (n, _ + 1, rest) => some (if signed.1 then -(n : Int) else (n : Int), rest)

/-- strtod as this format needs it: optional sign, digits with an
    optional fraction part.  (Exponents, hex floats and inf/nan never
    occur in the files the codec itself writes.) -/
def strtodCore (p : List Char) : Option (ℚ × List Char) :=
  let p := dropSpaces p
  let signed : Bool × List Char :=
    match p with
    | '-' :: rest => (true, rest)
    | '+' :: rest => (false, rest)
    | _ => (false, p)
  match digitsGo signed.2 0 0 with
  | (n, k, rest) =>
    match rest with
    | '.' :: rest' =>
      match digitsGo rest' 0 0 with
      | (f, j, rest'') =>
        if k + j = 0 then none
        else
          let v : ℚ := (n : ℚ) + (f : ℚ) / (10 : ℚ) ^ j
          some (if signed.1 then -v else v, rest'')
    | _ =>
      if k = 0 then none
      else some (if signed.1 then -(n : ℚ) else (n : ℚ), rest)

/-- parse_number_field for a uint64 destination: after a successful
    skip_key the value is written even when no digits follow (strtoull
    then yields 0 and the field parse fails).  The first component
    tells whether anything was written. -/
def parseU64Field (key : List Char) (p : List Char) :
    Option Nat × Bool × List Char :=
  match skipKey key p with
  | none => (none, false, p)
  | some p =>
    match strtolCore p with
    | some (v, rest) => (some ((v.emod (2 ^ 64)).toNat), true, rest)
    | none => (some 0, false, p)

/-- parse_number_field for a uint32 destination (strtoul then a uint32
    store). -/
def parseU32Field (key : List Char) (p : List Char) :
    Option Nat × Bool × List Char :=
  match skipKey key p with
  | none => (none, false, p)
  | some p =>
    match strtolCore p with
    | some (v, rest) => (some ((v.emod (2 ^ 32)).toNat), true, rest)
    | none => (some 0, false, p)

/-- parse_number_field for an int destination (strtol then an int
    store; the wrap to int32 is modelled). -/
def parseIntField (key : List Char) (p : List Char) :
    Option Int × Bool × List Char :=
  match skipKey key p with
  | none => (none, false, p)
  | some p =>
    match strtolCore p with
    | some (v, rest) => (some ((v + 2 ^ 31).emod (2 ^ 32) - 2 ^ 31), true, rest)
    | none => (some 0, false, p)

/-- parse_number_field for a double destination. -/
def parseDoubleField (key : List Char) (p : List Char) :
    Option ℚ × Bool × List Char :=
  match skipKey key p with
  | none => (none, false, p)
  | some p =>
    match strtodCore p with
    | some (v, rest) => (some v, true, rest)
    | none => (some 0, false, p)

/-- parse_number_field with all destinations NULL (block_index): the
    source then returns false without consuming anything after the key,
    so a record always fails right here — but only after skip_key has
    moved the pointer. -/
def parseDiscardField (key : List Char) (p : List Char) : Bool × List Char :=
  match skipKey key p with
  | none => (false, p)
  | some p => (false, p)

def kSigKey : List Char := "signature".data
def kJFS1 : List Char := "JFS1".data
def kVersionKey : List Char := "version".data
def kV01 : List Char := "0.1".data
def kOriginKey : List Char := "origin_device_id".data
def kCreatedKey : List Char := "created_at".data
def kUpdatedKey : List Char := "updated_at".data
def kBlocksKey : List Char := "blocks".data
def kBlockIndexKey : List Char := "block_index".data
def kInputKey : List Char := "input".data
def kOutputKey : List Char := "output".data
def kHashKey : List Char := "hash".data
def kPrevHashKey : List Char := "previous_hash".data
def kTimestampKey : List Char := "timestamp".data
def kDeltaKey : List Char := "delta_ms".data
def kDurationKey : List Char := "duration_ms".data
def kValidKey : List Char := "valid".data
def kConfidenceKey : List Char := "confidence".data
def kUsageKey : List Char := "usage_count".data
def kDeviceIdKey : List Char := "device_id".data

def parseSigStep (b : Block ℚ) (p : List Char) :
    Bool × Block ℚ × List Char :=
  match parseHexField kSigKey SIGNATURE_SIZE p with
  | (ok, bytes, p) =>
    let b := { b with
        signature := bytes ++ List.replicate (SIGNATURE_SIZE - bytes.length) 0 }
    if ok then
      match skipSymbol '\x7d' p with
      | some p => (true, b, p)
      | none => (false, b, p)
    else (false, b, p)

def parseDevIdStep (b : Block ℚ) (p : List Char) :
    Bool × Block ℚ × List Char :=
  match parseHexField kDeviceIdKey DEVICE_ID_SIZE p with
  | (ok, bytes, p) =>
    let b := { b with
        device_id := bytes ++ List.replicate (DEVICE_ID_SIZE - bytes.length) 0 }
    if ok then parseSigStep b p else (false, b, p)

def parseUsageStep (b : Block ℚ) (p : List Char) :
    Bool × Block ℚ × List Char :=
  match parseU32Field kUsageKey p with
  | (w, ok, p) =>
    let b := { b with usage_count := w.getD b.usage_count }
    if ok then parseDevIdStep b p else (false, b, p)

def parseConfidenceStep (b : Block ℚ) (p : List Char) :
    Bool × Block ℚ × List Char :=
  match parseDoubleField kConfidenceKey p with
  | (w, ok, p) =>
    let b := { b with confidence := w.getD b.confidence }
    if ok then parseUsageStep b p else (false, b, p)

def parseValidStep (b : Block ℚ) (p : List Char) :
    Bool × Block ℚ × List Char :=
  match parseIntField kValidKey p with
  | (w, ok, p) =>
    let b := { b with valid := w.getD b.valid }
    if ok then parseConfidenceStep b p else (false, b, p)

def parseDurationStep (b : Block ℚ) (p : List Char) :
    Bool × Block ℚ × List Char :=
  match parseU32Field kDurationKey p with
  | (w, ok, p) =>
    let b := { b with duration_ms := w.getD b.duration_ms }
    if ok then parseValidStep b p else (false, b, p)

def parseDeltaStep (b : Block ℚ) (p : List Char) :
    Bool × Block ℚ × List Char :=
  match parseU32Field kDeltaKey p with
  | (w, ok, p) =>
    let b := { b with delta_ms := w.getD b.delta_ms }
    if ok then parseDurationStep b p else (false, b, p)

def parseTimestampStep (b : Block ℚ) (p : List Char) :
    Bool × Block ℚ × List Char :=
  match parseU64Field kTimestampKey p with
  | (w, ok, p) =>
    let b := { b with timestamp := w.getD b.timestamp }
    if ok then parseDeltaStep b p else (false, b, p)

def parsePrevHashStep (b : Block ℚ) (p : List Char) :
    Bool × Block ℚ × List Char :=
  match parseHexField kPrevHashKey HASH_SIZE p with
  | (ok, _, p) => if ok then parseTimestampStep b p else (false, b, p)

def parseHashStep (b : Block ℚ) (p : List Char) :
    Bool × Block ℚ × List Char :=
  match parseHexField kHashKey HASH_SIZE p with
  | (ok, bytes, p) =>
    let b := { b with hash := bytes ++ List.replicate (HASH_SIZE - bytes.length) 0 }
    if ok then parsePrevHashStep b p else (false, b, p)

def parseOutputStep (b : Block ℚ) (p : List Char) :
    Bool × Block ℚ × List Char :=
  match parseStringField kOutputKey OUTPUT_SIZE p with
  | (ok, s, p) =>
    let b := { b with output := s }
    if ok then parseHashStep b p else (false, b, p)

def parseInputStep (b : Block ℚ) (p : List Char) :
    Bool × Block ℚ × List Char :=
  match parseStringField kInputKey INPUT_SIZE p with
  | (ok, s, p) =>
    let b := { b with input := s }
    if ok then parseOutputStep b p else (false, b, p)

/-- The tail of `parseBlockRecord` after the opening brace, split out
    field by field to keep each step readable.  Mirrors lines 464-485
    of jellyfish.c in order. -/
def parseBlockIndexStep (b : Block ℚ) (p : List Char) :
    Bool × Block ℚ × List Char :=
  match parseDiscardField kBlockIndexKey p with
  | (false, p) => (false, b, p)
  | (true, p) => parseInputStep b p

/-- One block record of the load loop: the slot was memset to zero,
    then the fields are parsed in source order into it; any failure
    stops the record with the partial writes in place.  (Note that the
    `block_index` field is parsed with all destination pointers NULL,
    which parse_number_field answers with `false` after consuming the
    key — so a record can never parse successfully.)  Hex fields land
    in zeroed arrays, hence the zero padding of partial reads. -/
def parseBlockRecord (p0 : List Char) : Bool × Block ℚ × List Char :=
  let b : Block ℚ := zeroBlock
  match skipSymbol '\x7b' p0 with
  | none => (false, b, p0)
  | some p =>
  match parseBlockIndexStep b p with
  | r => r

/-- The block loop of fossil_jellyfish_load:
    `while (ok && *ptr && *ptr != ']' && count < MAX_MEM)`.  The `]`
    test looks at the raw next character without skipping whitespace.
    Each iteration memsets `memory[count]`, parses a record into it and
    on success swallows an optional comma. -/
def loadBlocks : Nat → List Char → Nat → List (Block ℚ) →
    Bool × List (Block ℚ) × Nat × List Char
  | 0, p, count, mem => (true, mem, count, p)
  | fuel + 1, p, count, mem =>
    match p with
    | [] => (true, mem, count, p)
    | c :: _ =>
      if c ≠ ']' ∧ count < MAX_MEM then
        match parseBlockRecord p with
        | (ok, b, p') =>
          let mem := mem.set count b
          if ok then loadBlocks fuel (skipComma p') (count + 1) mem
          else (false, mem, count, p')
      else (true, mem, count, p)

/-- The origin_device_id byte loop of the loader: on a failed sscanf it
    still writes 0 to the current byte and advances the pointer by two,
    then stops; bytes beyond keep their previous contents. -/
def devGo : Nat → Nat → List Char → List Nat → Bool × List Nat × List Char
  | _, 0, p, dev => (true, dev, p)
  | i, fuel + 1, p, dev =>
    match sscanf2x p with
    | some v => devGo (i + 1) fuel (p.drop 2) (dev.set i v)
    | none => (false, dev.set i 0, p.drop 2)

/-- The observable outcome of the body of fossil_jellyfish_load: the
    success flag and the final values of every destination field the
    loader writes through the chain pointer. -/
structure LoadSt where
  ok : Bool
  dev : List Nat
  created : Nat
  updated : Nat
  mem : List (Block ℚ)
  nblocks : Nat
deriving DecidableEq, Repr

/-- Continuation of `loadCore` after the origin_device_id hex run. -/
def loadAfterHeaderHex (_buf : List Char) (dev : List Nat)
    (mem0 : List (Block ℚ)) (ca0 ua0 : Nat) (p : List Char) : LoadSt :=
  match parseU64Field kCreatedKey p with
  | (w, okC, p) =>
    let ca := w.getD ca0
    if !okC then ⟨false, dev, ca, ua0, mem0, 0⟩
    else
      match parseU64Field kUpdatedKey p with
      | (w2, okU, p) =>
        let ua := w2.getD ua0
        if !okU then ⟨false, dev, ca, ua, mem0, 0⟩
        else
          match skipKey kBlocksKey p with
          | none => ⟨false, dev, ca, ua, mem0, 0⟩
          | some p =>
            match skipSymbol '[' p with
            | none => ⟨false, dev, ca, ua, mem0, 0⟩
            | some p =>
              match loadBlocks (MAX_MEM + 1) p 0 mem0 with
              | (okB, mem, count, p) =>
                if !okB then ⟨false, dev, ca, ua, mem, count⟩
                else
                  match skipSymbol ']' p with
                  | none => ⟨false, dev, ca, ua, mem, count⟩
                  | some p =>
                    match skipSymbol '\x7d' p with
                    | none => ⟨false, dev, ca, ua, mem, count⟩
                    | some _ => ⟨true, dev, ca, ua, mem, count⟩

/-- The parsing body of fossil_jellyfish_load (jellyfish.c lines
    436-495), operating on the destination chain's current header
    fields and memory. Writes happen en route exactly where the source
    writes through `chain->...`; the success flag decides nothing about
    them — only `chain->count` is assigned under `if (ok)` at the end
    (see `fossil_jellyfish_load`). -/
def loadCore (buf : List Char) (dev0 : List Nat) (mem0 : List (Block ℚ))
    (ca0 ua0 : Nat) : LoadSt :=
  match matchKeyValue kSigKey kJFS1 buf with
  | none => ⟨false, dev0, ca0, ua0, mem0, 0⟩
  | some p =>
    let p := skipKeyValue kVersionKey kV01 p
    match skipKey kOriginKey p with
    | none => ⟨false, dev0, ca0, ua0, mem0, 0⟩
    | some p =>
      match skipSymbol '"' p with
      | none => ⟨false, dev0, ca0, ua0, mem0, 0⟩
      | some p =>
        match devGo 0 DEVICE_ID_SIZE p dev0 with
        | (okDev, dev, p) =>
          if !okDev then ⟨false, dev, ca0, ua0, mem0, 0⟩
          else
            match skipSymbol '"' p with
            | none => ⟨false, dev, ca0, ua0, mem0, 0⟩
            | some p => loadAfterHeaderHex buf dev mem0 ca0 ua0 p

/-- fossil_jellyfish_load: rejects an empty or over-1MiB buffer (the
    file-size check), runs the parsing body against the destination
    chain, and assigns `chain->count` only when the whole parse
    succeeded.  All other destination fields keep whatever the body
    wrote, even on failure.  Returns the C result (1 success, 0
    failure) and the destination chain's final state. -/
def fossil_jellyfish_load (c : Chain ℚ) (buf : List Char) : Int × Chain ℚ :=
  if buf.length = 0 ∨ 1048576 < buf.length then (0, c)
  else
    let r := loadCore buf c.device_id c.memory c.created_at c.updated_at
    if r.ok then
      (1, { memory := r.mem, count := r.nblocks, device_id := r.dev,
            created_at := r.created, updated_at := r.updated })
    else
      (0, { memory := r.mem, count := c.count, device_id := r.dev,
            created_at := r.created, updated_at := r.updated })

/-! ### Save -/

def natChars (n : Nat) : List Char := (toString n).data

def intChars (i : Int) : List Char := (toString i).data

def hexDigitChar (n : Nat) : Char :=
  if n < 10 then Char.ofNat (48 + n) else Char.ofNat (87 + n)

/-- `%02x` of one byte (lowercase). -/
def byteHexChars (b : Nat) : List Char :=
  [hexDigitChar (b % 256 / 16), hexDigitChar (b % 16)]

def bytesHexChars (l : List Nat) : List Char := (l.map byteHexChars).flatten

def leftPadZeros (s : List Char) (w : Nat) : List Char :=
  List.replicate (w - s.length) '0' ++ s

/-- `%.6f` of the confidence.  printf's binary-float-to-decimal
    rounding is approximated by exact round-half-up on the modelled
    rational (floating-point representation is outside the model):
    `scaled` is the floor of `|x| * 10^6 + 1/2`, written on the
    numerator and denominator directly. -/
def confChars (x : ℚ) : List Char :=
  let scaled : Nat := (2000000 * x.num.natAbs + x.den) / (2 * x.den)
  (if x < 0 then ['-'] else []) ++ natChars (scaled / 1000000)
    ++ '.' :: leftPadZeros (natChars (scaled % 1000000)) 6

/-- The escaping loop of save: backslash before `"` and `\`, stopping
    when the destination offset reaches 2*CAP - 2. -/
def escGo (cap : Nat) : List Char → Nat → List Char
  | [], _ => []
  | ch :: rest, used =>
    if 2 * cap - 2 ≤ used then []
    else if ch = '"' ∨ ch = '\\' then '\\' :: ch :: escGo cap rest (used + 2)
    else ch :: escGo cap rest (used + 1)

def escapeChars (cap : Nat) (s : List Char) : List Char := escGo cap s 0

/-- The text save writes for block `i` (jellyfish.c lines 519-584). -/
def blockToText (c : Chain ℚ) (i : Nat) : List Char :=
  let b := c.memory.getD i zeroBlock
  "    \x7b\n".data
  ++ "      \"block_index\": ".data ++ natChars i ++ ",\n".data
  ++ "      \"input\": \"".data ++ escapeChars INPUT_SIZE b.input ++ "\",\n".data
  ++ "      \"output\": \"".data ++ escapeChars OUTPUT_SIZE b.output ++ "\",\n".data
  ++ "      \"hash\": \"".data ++ bytesHexChars b.hash ++ "\",\n".data
  ++ "      \"previous_hash\": \"".data
  ++ (if 0 < i then bytesHexChars (c.memory.getD (i - 1) zeroBlock).hash
      else "00000000000000000000000000000000".data)
  ++ "\",\n".data
  ++ "      \"timestamp\": ".data ++ natChars b.timestamp ++ ",\n".data
  ++ "      \"delta_ms\": ".data ++ natChars b.delta_ms ++ ",\n".data
  ++ "      \"duration_ms\": ".data ++ natChars b.duration_ms ++ ",\n".data
  ++ "      \"valid\": ".data ++ intChars b.valid ++ ",\n".data
  ++ "      \"confidence\": ".data ++ confChars b.confidence ++ ",\n".data
  ++ "      \"usage_count\": ".data ++ natChars b.usage_count ++ ",\n".data
  ++ "      \"device_id\": \"".data ++ bytesHexChars b.device_id ++ "\",\n".data
  ++ "      \"signature\": \"".data ++ bytesHexChars b.signature ++ "\"\n".data
  ++ "    \x7d".data ++ (if i < c.count - 1 then [','] else [])
  ++ "\n".data

/-- fossil_jellyfish_save: the document written to the file, byte by
    byte (the fopen/fclose around it is outside the model; the save
    itself cannot fail once the file is open). -/
def fossil_jellyfish_save (c : Chain ℚ) : List Char :=
  "\x7b\n".data
  ++ "  \"signature\": \"JFS1\",\n".data
  ++ "  \"version\": \"1.0.0\",\n".data
  ++ "  \"origin_device_id\": \"".data ++ bytesHexChars c.device_id ++ "\",\n".data
  ++ "  \"created_at\": ".data ++ natChars c.created_at ++ ",\n".data
  ++ "  \"updated_at\": ".data ++ natChars c.updated_at ++ ",\n".data
  ++ "  \"blocks\": [\n".data
  ++ ((List.range c.count).map (blockToText c)).flatten
  ++ "  ]\n".data
  ++ "\x7d\n".data

/-! ### Derived notions used by the spec claims -/

/-- `learn` called once per element of `calls`, each call with its own
    `time(NULL)` value and produced hash bytes. -/
def learnSeq (c : Chain α) (i o : List Char) :
    List (Nat × List Nat) → Chain α
  | [] => c
  | (now, h) :: rest => learnSeq (fossil_jellyfish_learn c i o now h) i o rest

/-- The fuzzy scores reason considers: the positional similarity of the
    query against every valid block of the scanned region. -/
def validScores (q : List Char) (bs : List (Block α)) : List Nat :=
  (bs.filter fun b => b.valid != 0).map
    fun b => fossil_jellyfish_similarity q b.input

/-- The confidence range that all chain operations actually maintain
    on a block list: non-negative and strictly below 1.05 (an
    exact-match reason on a block with confidence just under 1.0 can
    reach up to 1.05). -/
def MemInv (mem : List (Block ℝ)) : Prop :=
  ∀ b ∈ mem, 0 ≤ b.confidence ∧ b.confidence < 21 / 20

/-- The confidence range invariant on a chain. -/
def ConfInv (c : Chain ℝ) : Prop := MemInv c.memory

/-- One public chain operation, as the spec's claim about operation
    sequences enumerates them (learn, reason, decay, cleanup, prune,
    trim, dedupe, compact). -/
inductive ChainStep : Chain ℝ → Chain ℝ → Prop
  | learn (c : Chain ℝ) (i o : List Char) (now : Nat) (h : List Nat) :
      ChainStep c (fossil_jellyfish_learn c i o now h)
  | reason (c : Chain ℝ) (q : List Char) :
      ChainStep c (fossil_jellyfish_reason c q).2
  | decay (c : Chain ℝ) (r : ℝ) (now : Nat) :
      ChainStep c (fossil_jellyfish_decay_confidence c r now)
  | cleanup (c : Chain ℝ) : ChainStep c (fossil_jellyfish_cleanup c)
  | prune (c : Chain ℝ) (m : ℝ) :
      ChainStep c (fossil_jellyfish_prune_chain c m).1
  | dedupe (c : Chain ℝ) :
      ChainStep c (fossil_jellyfish_deduplicate_chain c).1
  | trim (c : Chain ℝ) (maxBlocks : Nat) :
      ChainStep c (fossil_jellyfish_trim c maxBlocks).1
  | compact (c : Chain ℝ) :
      ChainStep c (fossil_jellyfish_chain_compact c).1

/-! ### Concrete chains for witnesses and counterexamples -/

/-- A chain whose fields are all zero (header included), over any
    confidence field. -/
def zChainA : Chain α :=
  ⟨List.replicate MAX_MEM zeroBlock, 0, List.replicate DEVICE_ID_SIZE 0, 0, 0⟩

def zChain : Chain ℚ := zChainA

noncomputable def zChainR : Chain ℝ := zChainA

/-- Hash bytes used for example admissions (the mixer's output is taken
    as a parameter, see the preamble). -/
def exHash : List Nat := List.replicate HASH_SIZE 0

/-- A valid block with the given strings, confidence, immutable flag
    and timestamp; all other fields zero. -/
def simpleBlock (inp out : List Char) (conf : α) (imm : Int) (ts : Nat) :
    Block α :=
  { (zeroBlock : Block α) with
      input := inp, output := out, valid := 1, confidence := conf,
      immutable := imm, timestamp := ts }

/-- A chain holding one block in slot 0 with count 1. -/
def oneBlockChain (b : Block α) : Chain α :=
  ⟨b :: List.replicate (MAX_MEM - 1) zeroBlock, 1,
    List.replicate DEVICE_ID_SIZE 0, 0, 0⟩

/-- The scenario S5 chain: two learned pairs. -/
def roundTripChain : Chain ℚ :=
  fossil_jellyfish_learn
    (fossil_jellyfish_learn zChain ("alpha".data) ("beta".data) 100 exHash)
    ("gamma".data) ("delta".data) 200 exHash

/-- A load input with a well-formed header start and a valid 16-byte
    origin_device_id of 0xff bytes, truncated before created_at: the
    loader writes the device id into the destination and then fails. -/
def parseFailBuf : List Char :=
  "\"signature\": \"JFS1\" \"origin_device_id\": \"ffffffffffffffffffffffffffffffff\"".data

/-- An exact-match block at confidence 0.98 (for the reason bonus). -/
def cexC4Chain : Chain ℚ :=
  oneBlockChain (simpleBlock ("a".data) ("b".data) (49 / 50) 0 0)

/-- A valid immutable block at confidence 0.01. -/
def cexC5Chain : Chain ℚ :=
  oneBlockChain (simpleBlock ("a".data) ("b".data) (1 / 100) 1 0)

/-- count = 2 with a tombstone in slot 0 and a valid block in slot 1. -/
def cexC7Chain : Chain ℚ :=
  ⟨zeroBlock :: simpleBlock ("a".data) ("b".data) 1 0 0 ::
      List.replicate (MAX_MEM - 2) zeroBlock, 2,
    List.replicate DEVICE_ID_SIZE 0, 0, 0⟩

/-- A valid block with confidence 0.5 and timestamp 0 (so its age at
    now = 2 is positive), over ℝ for the decay engine. -/
noncomputable def cexC9Chain : Chain ℝ :=
  oneBlockChain (simpleBlock ("a".data) ("b".data) (1 / 2) 0 0)

/-- A mixed chain for the cleanup characterization: slot 0 kept, slot 1
    a tombstone, slot 2 valid but below the 0.05 threshold. -/
def witC6Chain : Chain ℚ :=
  ⟨simpleBlock ("a".data) ("1".data) 1 0 0 :: zeroBlock ::
      simpleBlock ("c".data) ("3".data) (1 / 100) 0 0 ::
      List.replicate (MAX_MEM - 3) zeroBlock, 3,
    List.replicate DEVICE_ID_SIZE 0, 0, 0⟩

/-- The scenario S2 chain: cat/dog/bird. -/
def witC8Chain : Chain ℚ :=
  ⟨simpleBlock ("cat".data) ("meow".data) 1 0 0 ::
      simpleBlock ("dog".data) ("bark".data) 1 0 0 ::
      simpleBlock ("bird".data) ("tweet".data) 1 0 0 ::
      List.replicate (MAX_MEM - 3) zeroBlock, 3,
    List.replicate DEVICE_ID_SIZE 0, 0, 0⟩

/-- A block timestamped at 5 for the block-age witness. -/
def witC10Block : Block ℚ := { (zeroBlock : Block ℚ) with timestamp := 5 }

/-! ## Theorems -/

/-- Claim C10: for every block and every `now`, block_age returns 0
    when the timestamp is in the future and `now - timestamp`
    otherwise; within the uint64 range the subtraction never wraps
    (the mod-2^64 of the machine subtraction is the identity). -/
theorem claim_C10 (b : Block ℚ) (now : Nat)
    (h1 : b.timestamp < 2 ^ 64) (h2 : now < 2 ^ 64) :
    (now < b.timestamp → fossil_jellyfish_block_age b now = 0) ∧
    (b.timestamp ≤ now →
      fossil_jellyfish_block_age b now = now - b.timestamp) := by
  refine ⟨fun h => ?_, fun h => ?_⟩
  · simp [fossil_jellyfish_block_age, h]
  · have hlt : ¬ now < b.timestamp := not_lt.2 h
    simp only [fossil_jellyfish_block_age, hlt, if_false]
    omega

/-- Witness for C10 at a concrete block (timestamp 5, now 7). -/
theorem claim_C10_witness :
    fossil_jellyfish_block_age witC10Block 7 = 7 - witC10Block.timestamp :=
  (claim_C10 witC10Block 7 (by decide) (by decide)).2 (by decide)

/-- Claim C1 (the code against its own test): the S5 chain has two
    blocks, yet loading its own saved text into a freshly initialized
    chain fails (returns 0) and populates nothing: the loader never
    consumes the opening brace save writes, accepts only version "0.1"
    where save writes "1.0.0", writes only 32 hex digits of
    previous_hash for block 0 where it expects 64, and its `]` test
    does not skip whitespace. -/
theorem claim_C1_roundtrip_fails :
    roundTripChain.count = 2 ∧
    (fossil_jellyfish_load (fossil_jellyfish_init zChain)
        (fossil_jellyfish_save roundTripChain)).1 = 0 ∧
    (fossil_jellyfish_load (fossil_jellyfish_init zChain)
        (fossil_jellyfish_save roundTripChain)).2.count = 0 := by
  decide

/-- Counterexample to claim C2 as stated: on `parseFailBuf` the load
    fails (status 0) but the destination chain is modified — its
    device_id header field has been overwritten with the parsed bytes. -/
theorem claim_C2_cex :
    (fossil_jellyfish_load (fossil_jellyfish_init zChain) parseFailBuf).1 = 0 ∧
    (fossil_jellyfish_load (fossil_jellyfish_init zChain)
        parseFailBuf).2.device_id = List.replicate DEVICE_ID_SIZE 255 ∧
    (fossil_jellyfish_init zChain).device_id = List.replicate DEVICE_ID_SIZE 0 ∧
    (fossil_jellyfish_load (fossil_jellyfish_init zChain) parseFailBuf).2 ≠
      fossil_jellyfish_init zChain := by
  decide

/-- Claim C2 amended: a failed load returns 0 and leaves the
    destination's `count` unchanged (`chain->count` is the only field
    assigned under the success flag); header fields and block slots may
    have been partially overwritten. -/
theorem claim_C2_amended (c : Chain ℚ) (buf : List Char)
    (h : (fossil_jellyfish_load c buf).1 = 0) :
    (fossil_jellyfish_load c buf).2.count = c.count := by
  unfold fossil_jellyfish_load at h ⊢
  by_cases hb : buf.length = 0 ∨ 1048576 < buf.length
  · rw [if_pos hb]
  · rw [if_neg hb] at h ⊢
    by_cases hok :
        (loadCore buf c.device_id c.memory c.created_at c.updated_at).ok = true
    · rw [if_pos hok] at h
      exact absurd h one_ne_zero
    · rw [if_neg hok]

/-- Witness for the amended C2 at the concrete failing buffer. -/
theorem claim_C2_amended_witness :
    (fossil_jellyfish_load (fossil_jellyfish_init zChain)
        parseFailBuf).2.count = (fossil_jellyfish_init zChain).count :=
  claim_C2_amended (fossil_jellyfish_init zChain) parseFailBuf (by decide)

/-- Counterexample to claim C4 as stated: an exact-match reason on a
    valid block with confidence 0.98 adds 0.05 without clamping, so the
    confidence becomes 1.03 > 1.0. -/
theorem claim_C4_cex :
    ((fossil_jellyfish_reason cexC4Chain
        ("a".data)).2.memory.getD 0 zeroBlock).confidence = 103 / 100 ∧
    ¬ ((fossil_jellyfish_reason cexC4Chain
        ("a".data)).2.memory.getD 0 zeroBlock).confidence ≤ 1 := by
  with_unfolding_all decide

/-- Counterexample to claim C7 as stated: learning a new pair into the
    tombstone at slot 0, which lies below count = 2, still increments
    count to 3 (the source bumps `chain->count` unconditionally). -/
theorem claim_C7_cex :
    ((fossil_jellyfish_learn cexC7Chain ("x".data) ("y".data) 5
        exHash).memory.getD 0 zeroBlock).input = "x".data ∧
    cexC7Chain.count = 2 ∧
    (fossil_jellyfish_learn cexC7Chain ("x".data) ("y".data) 5
        exHash).count = 3 := by
  decide

/-- Claim C7 amended: whenever learn admits (no valid block matches and
    some slot has valid = 0), `count` is incremented — regardless of
    whether the reused slot's index lies below or above `count`. -/
theorem claim_C7_amended (c : Chain ℚ) (i o : List Char) (now : Nat)
    (h : List Nat)
    (hnom : reinforceGo i o now c.memory = none)
    (hfree : (admitGo i o now h 0 c.memory).isSome = true) :
    (fossil_jellyfish_learn c i o now h).count = c.count + 1 := by
  unfold fossil_jellyfish_learn
  rw [hnom]
  obtain ⟨mem, hmem⟩ := Option.isSome_iff_exists.mp hfree
  rw [hmem]

/-- Witness for the amended C7 at the tombstone chain. -/
theorem claim_C7_amended_witness :
    (fossil_jellyfish_learn cexC7Chain ("x".data) ("y".data) 5
        exHash).count = cexC7Chain.count + 1 :=
  claim_C7_amended cexC7Chain ("x".data) ("y".data) 5 exHash
    (by decide) (by decide)

/-! ### Positional list helpers -/

theorem getD_append_lt {β : Type} (l₁ l₂ : List β) (i : Nat) (d : β)
    (h : i < l₁.length) : (l₁ ++ l₂).getD i d = l₁.getD i d := by
  induction l₁ generalizing i with
  | nil => simp at h
  | cons a t ih =>
    cases i with
    | zero => rfl
    | succ n => simpa using ih n (by simpa using h)

theorem getD_append_ge {β : Type} (l₁ l₂ : List β) (i : Nat) (d : β)
    (h : l₁.length ≤ i) :
    (l₁ ++ l₂).getD i d = l₂.getD (i - l₁.length) d := by
  induction l₁ generalizing i with
  | nil => simp
  | cons a t ih =>
    cases i with
    | zero => simp at h
    | succ n => simpa using ih n (by simpa using h)

theorem getD_map_lt {β γ : Type} (f : β → γ) (l : List β) (i : Nat)
    (d : β) (d' : γ) (h : i < l.length) :
    (l.map f).getD i d' = f (l.getD i d) := by
  induction l generalizing i with
  | nil => simp at h
  | cons a t ih =>
    cases i with
    | zero => rfl
    | succ n => simpa using ih n (by simpa using h)

theorem getD_take_lt {β : Type} (l : List β) (n i : Nat) (d : β)
    (h : i < n) : (l.take n).getD i d = l.getD i d := by
  induction l generalizing i n with
  | nil => simp
  | cons a t ih =>
    cases n with
    | zero => simp at h
    | succ m =>
      cases i with
      | zero => rfl
      | succ j => simpa using ih m j (Nat.lt_of_succ_lt_succ h)

theorem getD_drop {β : Type} (l : List β) (n i : Nat) (d : β) :
    (l.drop n).getD i d = l.getD (n + i) d := by
  induction l generalizing n with
  | nil => simp
  | cons a t ih =>
    cases n with
    | zero => simp
    | succ m => rw [Nat.succ_add]; exact ih m

/-! ### Claims C5 and C9 -/

/-- Counterexample to claim C5 as stated: a valid immutable block at
    confidence 0.01 is removed both by cleanup (slot zeroed, count 0)
    and by prune_chain at min_confidence 0.5 (count 0, one pruned) —
    neither function consults the immutable flag. -/
theorem claim_C5_cex :
    (cexC5Chain.memory.getD 0 zeroBlock).immutable = 1 ∧
    (cexC5Chain.memory.getD 0 zeroBlock).valid = 1 ∧
    (fossil_jellyfish_cleanup cexC5Chain).count = 0 ∧
    (fossil_jellyfish_cleanup cexC5Chain).memory.getD 0 zeroBlock = zeroBlock ∧
    (fossil_jellyfish_prune_chain cexC5Chain (1 / 2)).1.count = 0 ∧
    (fossil_jellyfish_prune_chain cexC5Chain (1 / 2)).2 = 1 := by
  with_unfolding_all decide

/-- Counterexample to claim C9 as stated: at decay rate 0 (which the
    claim covers: every r, including r ≤ 1.0) the source returns
    immediately, leaving the chain untouched, although the chain holds
    a valid block of positive age whose claimed decayed confidence
    (0.5 multiplied by 0.5^(age / max(1, r)), clamped) differs from its
    current confidence. -/
theorem claim_C9_cex :
    fossil_jellyfish_decay_confidence cexC9Chain 0 2 = cexC9Chain ∧
    (cexC9Chain.memory.getD 0 zeroBlock).valid ≠ 0 ∧
    ((0 : Int) <
      (2 : Int) - (((cexC9Chain.memory.getD 0 zeroBlock).timestamp / 1000 : Nat) : Int)) ∧
    max 0 (min ((cexC9Chain.memory.getD 0 zeroBlock).confidence *
        Real.rpow (1 / 2)
          ((((2 : Int) -
            (((cexC9Chain.memory.getD 0 zeroBlock).timestamp / 1000 : Nat) : Int) : Int) : ℝ) /
            max 1 (0 : ℝ))) 1) ≠
      (cexC9Chain.memory.getD 0 zeroBlock).confidence := by
  have hblock : cexC9Chain.memory.getD 0 zeroBlock =
      simpleBlock ("a".data) ("b".data) (1 / 2) 0 0 := rfl
  refine ⟨?_, ?_, ?_, ?_⟩
  · unfold fossil_jellyfish_decay_confidence
    rw [if_pos (Or.inr le_rfl)]
  · rw [hblock]; simp [simpleBlock, zeroBlock]
  · rw [hblock]; simp [simpleBlock, zeroBlock]
  · rw [hblock]
    simp only [simpleBlock, zeroBlock]
    have h2 : (((2 : Int) - ((((0 : Nat) / 1000 : Nat)) : Int) : Int) : ℝ) /
        max 1 (0 : ℝ) = ((2 : Nat) : ℝ) := by norm_num
    have h3 : Real.rpow (1 / 2 : ℝ) (((2 : Nat)) : ℝ) = (1 / 2 : ℝ) ^ (2 : Nat) :=
      Real.rpow_natCast _ 2
    rw [h2, h3]
    norm_num

/-- The decay step leaves the all-zero block unchanged (its valid flag
    is 0). -/
theorem decayBlock_zero (r : ℝ) (now : Nat) :
    decayBlock r now zeroBlock = zeroBlock := by
  have hz : (zeroBlock : Block ℝ).valid = 0 := rfl
  simp [decayBlock, hz]

/-- Claim C9 amended (the behaviour holds for r > 0; at r ≤ 0 the
    source returns without decaying, see the counterexample): decay
    treats r as a half-life clamped below at 1.0; every block of the
    scanned region with nonzero valid flag and positive age has its
    confidence multiplied by 0.5^(age / max(1, r)) and clamped into
    [0, 1], and is demoted to invalid when the result falls below
    0.05; blocks with age ≤ 0 or valid = 0 are unchanged; blocks at or
    beyond `count` are untouched and the chain is never compacted
    (count and array length are preserved). -/
theorem claim_C9_amended (c : Chain ℝ) (r : ℝ) (now : Nat) (hr : 0 < r) :
    (fossil_jellyfish_decay_confidence c r now).count = c.count ∧
    (fossil_jellyfish_decay_confidence c r now).memory.length =
      c.memory.length ∧
    (∀ i, c.count ≤ i →
      (fossil_jellyfish_decay_confidence c r now).memory.getD i zeroBlock =
        c.memory.getD i zeroBlock) ∧
    (∀ i, i < c.count →
      (fossil_jellyfish_decay_confidence c r now).memory.getD i zeroBlock =
        decayBlock r now (c.memory.getD i zeroBlock)) ∧
    (∀ b : Block ℝ, b.valid ≠ 0 →
      0 < (now : Int) - ((b.timestamp / 1000 : Nat) : Int) →
      (decayBlock r now b).confidence =
        max 0 (min (b.confidence *
          Real.rpow (1 / 2)
            ((((now : Int) - ((b.timestamp / 1000 : Nat) : Int) : Int) : ℝ) /
              max 1 r)) 1) ∧
      (decayBlock r now b).valid =
        (if (decayBlock r now b).confidence < 1 / 20 then 0 else b.valid)) ∧
    (∀ b : Block ℝ, b.valid ≠ 0 →
      (now : Int) - ((b.timestamp / 1000 : Nat) : Int) ≤ 0 →
      decayBlock r now b = b) ∧
    (∀ b : Block ℝ, b.valid = 0 → decayBlock r now b = b) := by
  have hnr : ¬ r ≤ 0 := not_le.2 hr
  have hmem : (fossil_jellyfish_decay_confidence c r now).memory =
      if c.count = 0 then c.memory
      else (c.memory.take c.count).map (decayBlock r now) ++
        c.memory.drop c.count := by
    unfold fossil_jellyfish_decay_confidence
    by_cases h0 : c.count = 0
    · rw [if_pos (Or.inl h0), if_pos h0]
    · rw [if_neg (by simp [h0, hnr]), if_neg h0]
  have hcnt : (fossil_jellyfish_decay_confidence c r now).count = c.count := by
    unfold fossil_jellyfish_decay_confidence
    by_cases h0 : c.count = 0
    · rw [if_pos (Or.inl h0)]
    · rw [if_neg (by simp [h0, hnr])]
  refine ⟨hcnt, ?_, ?_, ?_, ?_, ?_, ?_⟩
  · rw [hmem]
    by_cases h0 : c.count = 0
    · rw [if_pos h0]
    · rw [if_neg h0]
      simp [List.length_append, List.length_map, List.length_take]
      omega
  · intro i hi
    rw [hmem]
    by_cases h0 : c.count = 0
    · rw [if_pos h0]
    · rw [if_neg h0]
      have hlen : ((c.memory.take c.count).map (decayBlock r now)).length =
          min c.count c.memory.length := by simp
      by_cases hil : i < c.memory.length
      · have : min c.count c.memory.length ≤ i := le_trans (min_le_left _ _) hi
        rw [getD_append_ge _ _ _ _ (by omega)]
        rw [hlen, getD_drop]
        congr 1
        omega
      · rw [getD_append_ge _ _ _ _ (by omega)]
        have hd1 : (c.memory.drop c.count).getD
            (i - ((c.memory.take c.count).map (decayBlock r now)).length)
            zeroBlock = zeroBlock := by
          apply List.getD_eq_default
          simp
          omega
        have hd2 : c.memory.getD i zeroBlock = zeroBlock :=
          List.getD_eq_default _ _ (by omega)
        rw [hd1, hd2]
  · intro i hi
    rw [hmem]
    by_cases h0 : c.count = 0
    · omega
    · rw [if_neg h0]
      by_cases hil : i < c.memory.length
      · rw [getD_append_lt _ _ _ _ (by simp; omega)]
        rw [getD_map_lt _ _ _ zeroBlock _ (by simp; omega)]
        rw [getD_take_lt _ _ _ _ hi]
      · rw [getD_append_ge _ _ _ _ (by simp; omega)]
        have hd1 : c.memory.getD i zeroBlock = zeroBlock :=
          List.getD_eq_default _ _ (by omega)
        rw [hd1, decayBlock_zero]
        apply List.getD_eq_default
        simp
        omega
  · intro b hv hage
    have hv' : ¬ b.valid = 0 := hv
    unfold decayBlock
    rw [if_neg hv', if_neg (not_le.2 hage)]
    exact ⟨rfl, rfl⟩
  · intro b hv hage
    have hv' : ¬ b.valid = 0 := hv
    unfold decayBlock
    rw [if_neg hv', if_pos hage]
  · intro b hv
    unfold decayBlock
    rw [if_pos hv]

/-- Witness for the amended C9 at the concrete chain, rate 1, now 2:
    the in-range block is rewritten by the decay step and count is
    preserved. -/
theorem claim_C9_amended_witness :
    (fossil_jellyfish_decay_confidence cexC9Chain 1 2).memory.getD 0
        zeroBlock =
      decayBlock 1 2 (cexC9Chain.memory.getD 0 zeroBlock) ∧
    (fossil_jellyfish_decay_confidence cexC9Chain 1 2).count =
      cexC9Chain.count :=
  ⟨(claim_C9_amended cexC9Chain 1 2 (by norm_num)).2.2.2.1 0
      (by norm_num [cexC9Chain, oneBlockChain]),
    (claim_C9_amended cexC9Chain 1 2 (by norm_num)).1⟩

/-! ### The cleanup characterization (claims C6 and C5) -/

theorem getD_mem {β : Type} (l : List β) (i : Nat) (d : β)
    (h : i < l.length) : l.getD i d ∈ l := by
  induction l generalizing i with
  | nil => simp at h
  | cons a t ih =>
    cases i with
    | zero => exact List.mem_cons_self _ _
    | succ n => exact List.mem_cons_of_mem _ (ih n (by simpa using h))

theorem take_succ_getD {β : Type} (l : List β) (n : Nat) (d : β)
    (h : n < l.length) : l.take (n + 1) = l.take n ++ [l.getD n d] := by
  induction l generalizing n with
  | nil => simp at h
  | cons a t ih =>
    cases n with
    | zero => rfl
    | succ m => simpa using ih m (by simpa using h)

theorem drop_eq_getD_cons {β : Type} (l : List β) (n : Nat) (d : β)
    (h : n < l.length) : l.drop n = l.getD n d :: l.drop (n + 1) := by
  induction l generalizing n with
  | nil => simp at h
  | cons a t ih =>
    cases n with
    | zero => rfl
    | succ m => simpa using ih m (by simpa using h)

variable {α : Type} [LinearOrderedField α]

/-- The full characterization of the cleanup loop: starting from the
    loop invariant at (src, dst) (the processed prefix has been
    compacted into the first dst slots, the region between dst and src
    holds stale copies of kept blocks and zeroed removed slots, the
    region at and beyond src is untouched), the loop ends with the kept
    blocks compacted at the front, dst = their number, and the tail
    transformed slotwise by `trB`. -/
theorem cleanupAux_spec (mem₀ : List (Block α)) :
    ∀ (fuel src dst : Nat) (mem : List (Block α)),
      src + fuel = mem₀.length →
      dst = ((mem₀.take src).filter keepB).length →
      mem = (mem₀.take src).filter keepB ++
        (((mem₀.take src).drop dst).map trB ++ mem₀.drop src) →
      cleanupAux fuel src dst mem =
        (mem₀.filter keepB ++
          (mem₀.drop (mem₀.filter keepB).length).map trB,
          (mem₀.filter keepB).length) := by
  intro fuel
  induction fuel with
  | zero =>
    intro src dst mem hsrc hdst hmem
    have hs : src = mem₀.length := by omega
    subst hs
    rw [List.take_length] at hdst hmem
    rw [List.drop_length] at hmem
    subst hdst
    subst hmem
    simp [cleanupAux]
  | succ fuel ih =>
    intro src dst mem hsrc hdst hmem
    have hsrclt : src < mem₀.length := by omega
    have htklen : (mem₀.take src).length = src := by
      simp [List.length_take]; omega
    have hAlen : ((mem₀.take src).filter keepB).length = dst := hdst.symm
    have hdle : dst ≤ src := by
      calc dst = ((mem₀.take src).filter keepB).length := hdst
        _ ≤ (mem₀.take src).length := List.length_filter_le _ _
        _ = src := htklen
    have hMlen : (((mem₀.take src).drop dst).map trB).length = src - dst := by
      simp [List.length_drop, List.length_take]
      omega
    have hR : mem₀.drop src =
        mem₀.getD src zeroBlock :: mem₀.drop (src + 1) :=
      drop_eq_getD_cons _ _ _ hsrclt
    have hb : mem.getD src zeroBlock = mem₀.getD src zeroBlock := by
      rw [hmem, getD_append_ge _ _ _ _ (by omega),
        getD_append_ge _ _ _ _ (by omega), hAlen, hMlen, hR]
      have : src - dst - (src - dst) = 0 := by omega
      rw [this]
      rfl
    have htk1 : mem₀.take (src + 1) =
        mem₀.take src ++ [mem₀.getD src zeroBlock] :=
      take_succ_getD _ _ _ hsrclt
    simp only [cleanupAux]
    rw [hb]
    by_cases hk : keepB (mem₀.getD src zeroBlock) = true
    · rw [if_pos hk]
      have hA1 : (mem₀.take (src + 1)).filter keepB =
          (mem₀.take src).filter keepB ++ [mem₀.getD src zeroBlock] := by
        rw [htk1, List.filter_append, List.filter_cons_of_pos hk,
          List.filter_nil]
      apply ih (src + 1) (dst + 1)
      · omega
      · rw [hA1, List.length_append, hAlen]
        rfl
      · rw [hA1]
        by_cases hds : dst = src
        · rw [if_pos hds]
          have hMnil : (mem₀.take src).drop dst = [] := by
            apply List.drop_eq_nil_of_le
            omega
          have hMnil1 : (mem₀.take (src + 1)).drop (dst + 1) = [] := by
            apply List.drop_eq_nil_of_le
            rw [htk1]
            simp [htklen]
            omega
          rw [hmem, hMnil, hMnil1, hR]
          simp
        · rw [if_neg hds]
          have hdlt : dst < src := by omega
          have hD : (mem₀.take src).drop dst =
              (mem₀.take src).getD dst zeroBlock ::
                (mem₀.take src).drop (dst + 1) :=
            drop_eq_getD_cons _ _ _ (by omega)
          have hM1 : (mem₀.take (src + 1)).drop (dst + 1) =
              (mem₀.take src).drop (dst + 1) ++ [mem₀.getD src zeroBlock] := by
            rw [htk1, List.drop_append_of_le_length (by omega)]
          rw [hmem, hM1, hD, hR]
          rw [List.set_append_right _ _ (by simp [hAlen])]
          simp only [hAlen, Nat.sub_self, List.map_cons, List.cons_append,
            List.map_append, List.set_cons_zero, trB, if_pos hk]
          simp
    · rw [if_neg hk]
      have hkf : keepB (mem₀.getD src zeroBlock) = false := by
        simpa using hk
      have hA1 : (mem₀.take (src + 1)).filter keepB =
          (mem₀.take src).filter keepB := by
        rw [htk1, List.filter_append,
          List.filter_cons_of_neg (by simp only [Bool.not_eq_true]; exact hkf),
          List.filter_nil, List.append_nil]
      apply ih (src + 1) dst
      · omega
      · rw [hA1, hAlen]
      · 
        have hM1 : (mem₀.take (src + 1)).drop dst =
            (mem₀.take src).drop dst ++ [mem₀.getD src zeroBlock] := by
          rw [htk1, List.drop_append_of_le_length (by omega)]
        rw [hA1, hM1, hmem, hR]
        rw [List.set_append_right _ _ (by simp [hAlen]; omega)]
        rw [List.set_append_right _ _ (by simp [hAlen, hMlen]; omega)]
        simp only [hAlen, hMlen]
        have : src - dst - (src - dst) = 0 := by omega
        rw [this]
        simp only [List.set_cons_zero, List.map_append, List.map_cons,
          List.map_nil, trB, if_neg hk]
        simp

/-- What fossil_jellyfish_cleanup computes, in closed form: the kept
    blocks (valid with confidence at least 0.05) compacted at the
    front, the tail holding a zero block where a block was removed and
    a stale copy where a kept block used to sit, and `count` the number
    of kept blocks. -/
theorem cleanup_eq (c : Chain α) :
    fossil_jellyfish_cleanup c =
      { c with
          memory := c.memory.filter keepB ++
            (c.memory.drop ((c.memory.filter keepB).length)).map trB,
          count := (c.memory.filter keepB).length } := by
  unfold fossil_jellyfish_cleanup
  rw [cleanupAux_spec c.memory c.memory.length 0 0 c.memory
    (by omega) (by simp) (by simp)]

theorem take_append_self {β : Type} (l₁ l₂ : List β) :
    (l₁ ++ l₂).take l₁.length = l₁ := by
  induction l₁ with
  | nil => rfl
  | cons a t ih => simpa using ih

theorem keepB_iff (b : Block α) :
    keepB b = true ↔ b.valid ≠ 0 ∧ (1 / 20 : α) ≤ b.confidence := by
  simp [keepB]

theorem keepB_eq_keepClaim (b : Block α)
    (hb : b.valid = 0 ∨ b.valid = 1) : keepB b = keepClaim b := by
  rcases hb with h | h <;> simp [keepB, keepClaim, h]

/-- Claim C6: cleanup is a stable compaction.  For a chain whose valid
    flags are boolean (0 or 1, the only values the chain operations
    themselves write), exactly the blocks with valid = 1 and confidence
    at least 0.05 survive, packed at the front in their original
    relative order; `count` becomes the number of kept blocks; every
    slot of the tail whose block was removed is zeroed; and every block
    below the new count is valid with confidence at least 0.05.  (The
    tail slots that held kept blocks retain stale copies, as the
    source's copy-down loop leaves them in place.) -/
theorem claim_C6 (c : Chain ℚ)
    (hv : ∀ b ∈ c.memory, b.valid = 0 ∨ b.valid = 1) :
    (fossil_jellyfish_cleanup c).count =
      (c.memory.filter keepClaim).length ∧
    (fossil_jellyfish_cleanup c).memory.take
        (fossil_jellyfish_cleanup c).count =
      c.memory.filter keepClaim ∧
    (∀ p, (fossil_jellyfish_cleanup c).count ≤ p → p < c.memory.length →
      keepClaim (c.memory.getD p zeroBlock) = false →
      (fossil_jellyfish_cleanup c).memory.getD p zeroBlock = zeroBlock) ∧
    (∀ i, i < (fossil_jellyfish_cleanup c).count →
      ((fossil_jellyfish_cleanup c).memory.getD i zeroBlock).valid = 1 ∧
      (1 / 20 : ℚ) ≤
        ((fossil_jellyfish_cleanup c).memory.getD i zeroBlock).confidence) ∧
    (fossil_jellyfish_cleanup c).memory.length = c.memory.length := by
  have hfeq : c.memory.filter keepB = c.memory.filter keepClaim :=
    List.filter_congr fun b hb => keepB_eq_keepClaim b (hv b hb)
  have hFle : (c.memory.filter keepB).length ≤ c.memory.length :=
    List.length_filter_le _ _
  rw [cleanup_eq]
  refine ⟨by simp [hfeq], ?_, ?_, ?_, ?_⟩
  · simp only
    rw [take_append_self]
    exact hfeq
  · intro p hge hlt hkc
    simp only at hge ⊢
    have hkb : keepB (c.memory.getD p zeroBlock) = false := by
      have hmem : c.memory.getD p zeroBlock ∈ c.memory := getD_mem _ _ _ hlt
      rw [keepB_eq_keepClaim _ (hv _ hmem)]
      exact hkc
    rw [getD_append_ge _ _ _ _ hge]
    have hplt : p - (c.memory.filter keepB).length <
        (c.memory.drop (c.memory.filter keepB).length).length := by
      simp [List.length_drop]
      omega
    rw [getD_map_lt _ _ _ zeroBlock _ hplt, getD_drop]
    have hpe : (c.memory.filter keepB).length +
        (p - (c.memory.filter keepB).length) = p := by omega
    rw [hpe]
    unfold trB
    rw [if_neg (by simp only [Bool.not_eq_true]; exact hkb)]
  · intro i hi
    simp only at hi ⊢
    rw [getD_append_lt _ _ _ _ (by simpa using hi)]
    have hmemF : (c.memory.filter keepB).getD i zeroBlock ∈
        c.memory.filter keepB := getD_mem _ _ _ (by simpa using hi)
    have hk : keepB ((c.memory.filter keepB).getD i zeroBlock) = true :=
      List.of_mem_filter hmemF
    have hmem : (c.memory.filter keepB).getD i zeroBlock ∈ c.memory :=
      List.mem_of_mem_filter hmemF
    rcases (keepB_iff _).1 hk with ⟨hv0, hc0⟩
    rcases hv _ hmem with h | h
    · exact absurd h hv0
    · exact ⟨h, hc0⟩
  · simp
    omega

/-- Witness for C6 at the mixed chain (one kept block, one tombstone,
    one low-confidence block). -/
theorem claim_C6_witness :
    (fossil_jellyfish_cleanup witC6Chain).count =
      (witC6Chain.memory.filter keepClaim).length ∧
    (fossil_jellyfish_cleanup witC6Chain).memory.take
        (fossil_jellyfish_cleanup witC6Chain).count =
      witC6Chain.memory.filter keepClaim ∧
    (fossil_jellyfish_cleanup witC6Chain).memory.getD 2 zeroBlock =
      zeroBlock ∧
    ((fossil_jellyfish_cleanup witC6Chain).memory.getD 0 zeroBlock).valid =
      1 :=
  ⟨(claim_C6 witC6Chain (by with_unfolding_all decide)).1,
    (claim_C6 witC6Chain (by with_unfolding_all decide)).2.1,
    (claim_C6 witC6Chain (by with_unfolding_all decide)).2.2.1 2
      (by with_unfolding_all decide) (by with_unfolding_all decide)
      (by with_unfolding_all decide),
    ((claim_C6 witC6Chain (by with_unfolding_all decide)).2.2.2.1 0
      (by with_unfolding_all decide)).1⟩

/-! ### The prune loop invariant (claim C5 amended) -/

theorem length_removeShift (mem : List (Block α)) (i count : Nat)
    (hi : i < count) (hc : count ≤ mem.length) :
    (removeShift mem i count).length = mem.length := by
  unfold removeShift
  simp [List.length_take, List.length_drop]
  omega

theorem getD_removeShift_lt (mem : List (Block α)) (i count j : Nat)
    (d : Block α) (hj : j < i) (hc : count ≤ mem.length) (hi : i < count) :
    (removeShift mem i count).getD j d = mem.getD j d := by
  unfold removeShift
  rw [getD_append_lt _ _ _ _
    (by simp [List.length_take, List.length_append, List.length_drop]; omega)]
  rw [getD_append_lt _ _ _ _ (by simp [List.length_take]; omega)]
  exact getD_take_lt mem i j d hj

/-- The prune loop keeps only blocks passing the condition: at exit,
    every slot below the new count is valid with confidence at least
    min_confidence — no block is exempted, immutable or not. -/
theorem pruneAux_spec (m : α) :
    ∀ (fuel i count : Nat) (mem : List (Block α)) (pr : Nat),
      count ≤ mem.length → i ≤ count → count - i ≤ fuel →
      (∀ j, j < i → pruneCond m (mem.getD j zeroBlock) = false) →
      ∀ j, j < (pruneAux m fuel i count mem pr).2.1 →
        pruneCond m
          ((pruneAux m fuel i count mem pr).1.getD j zeroBlock) = false := by
  intro fuel
  induction fuel with
  | zero =>
    intro i count mem pr hc hi hfuel hinv j hj
    have : i = count := by omega
    subst this
    simpa [pruneAux] using hinv j (by simpa [pruneAux] using hj)
  | succ fuel ih =>
    intro i count mem pr hc hi hfuel hinv j hj
    by_cases hic : i < count
    · by_cases hcond : pruneCond m (mem.getD i zeroBlock) = true
      · have hrw : pruneAux m (fuel + 1) i count mem pr =
            pruneAux m fuel i (count - 1) (removeShift mem i count) (pr + 1) := by
          simp only [pruneAux]
          rw [if_pos hic, if_pos hcond]
        rw [hrw] at hj ⊢
        apply ih i (count - 1) (removeShift mem i count) (pr + 1)
        · rw [length_removeShift mem i count hic hc]
          omega
        · omega
        · omega
        · intro k hk
          rw [getD_removeShift_lt mem i count k zeroBlock hk hc hic]
          exact hinv k hk
        · exact hj
      · have hcond' : pruneCond m (mem.getD i zeroBlock) = false := by
          simpa using hcond
        have hrw : pruneAux m (fuel + 1) i count mem pr =
            pruneAux m fuel (i + 1) count mem pr := by
          simp only [pruneAux]
          rw [if_pos hic,
            if_neg (by simp only [Bool.not_eq_true]; exact hcond')]
        rw [hrw] at hj ⊢
        apply ih (i + 1) count mem pr hc (by omega) (by omega)
        · intro k hk
          rcases Nat.lt_succ_iff_lt_or_eq.1 hk with hk' | hk'
          · exact hinv k hk'
          · subst hk'
            exact hcond'
        · exact hj
    · have hrw : pruneAux m (fuel + 1) i count mem pr = (mem, count, pr) := by
        simp only [pruneAux]
        rw [if_neg hic]
      rw [hrw] at hj ⊢
      have : i = count := by omega
      subst this
      exact hinv j hj

/-- Claim C5 amended: the immutable flag gives no protection.  Every
    block surviving cleanup (index below the new count) has a nonzero
    valid flag and confidence at least 0.05, and every block surviving
    prune_chain(min_confidence) has a nonzero valid flag and confidence
    at least min_confidence — an immutable block below either threshold
    is removed like any other (see the counterexample); the flag only
    matters to best-match tie-breaking and trust scoring. -/
theorem claim_C5_amended (c : Chain ℚ) (m : ℚ)
    (hc : c.count ≤ c.memory.length) :
    (∀ i, i < (fossil_jellyfish_cleanup c).count →
      ((fossil_jellyfish_cleanup c).memory.getD i zeroBlock).valid ≠ 0 ∧
      (1 / 20 : ℚ) ≤
        ((fossil_jellyfish_cleanup c).memory.getD i zeroBlock).confidence) ∧
    (∀ i, i < (fossil_jellyfish_prune_chain c m).1.count →
      ((fossil_jellyfish_prune_chain c m).1.memory.getD i
          zeroBlock).valid ≠ 0 ∧
      m ≤ ((fossil_jellyfish_prune_chain c m).1.memory.getD i
          zeroBlock).confidence) := by
  constructor
  · intro i hi
    rw [cleanup_eq] at hi ⊢
    simp only at hi ⊢
    rw [getD_append_lt _ _ _ _ (by simpa using hi)]
    have hmemF : (c.memory.filter keepB).getD i zeroBlock ∈
        c.memory.filter keepB := getD_mem _ _ _ (by simpa using hi)
    exact (keepB_iff _).1 (List.of_mem_filter hmemF)
  · intro i hi
    unfold fossil_jellyfish_prune_chain at hi ⊢
    by_cases h0 : c.count = 0
    · rw [if_pos h0] at hi
      simp [h0] at hi
    · rw [if_neg h0] at hi ⊢
      simp only at hi ⊢
      have hcf := pruneAux_spec m c.count 0 c.count c.memory 0 hc
        (by omega) (by omega) (by intro j hj; omega) i hi
      unfold pruneCond at hcf
      rcases Bool.or_eq_false_iff.1 hcf with ⟨h1, h2⟩
      refine ⟨by simpa using h1, ?_⟩
      exact not_lt.1 (of_decide_eq_false h2)

/-- Witness for the amended C5 at the mixed chain (cleanup keeps the
    confident block at slot 0; prune at 0.5 does too). -/
theorem claim_C5_amended_witness :
    (((fossil_jellyfish_cleanup witC6Chain).memory.getD 0
        zeroBlock).valid ≠ 0 ∧
      (1 / 20 : ℚ) ≤
        ((fossil_jellyfish_cleanup witC6Chain).memory.getD 0
          zeroBlock).confidence) ∧
    (((fossil_jellyfish_prune_chain witC6Chain (1 / 2)).1.memory.getD 0
        zeroBlock).valid ≠ 0 ∧
      (1 / 2 : ℚ) ≤
        ((fossil_jellyfish_prune_chain witC6Chain (1 / 2)).1.memory.getD 0
          zeroBlock).confidence) :=
  ⟨(claim_C5_amended witC6Chain (1 / 2) (by decide)).1 0
      (by with_unfolding_all decide),
    (claim_C5_amended witC6Chain (1 / 2) (by decide)).2 0
      (by with_unfolding_all decide)⟩


/-! ### Claim C3: repeated learn of one pair -/

theorem strncmpEq_refl : ∀ (n : Nat) (s : List Char), strncmpEq n s s = true
  | 0, _ => rfl
  | _ + 1, [] => rfl
  | n + 1, c :: cs => by simp [strncmpEq, strncmpEq_refl n cs]

variable {α : Type} [LinearOrderedField α]

theorem matchesPair_admitted (i o : List Char) (now : Nat) (h : List Nat)
    (p : Nat) (imm : Int) (hi : i.length < INPUT_SIZE)
    (ho : o.length < OUTPUT_SIZE) :
    matchesPair (admittedBlock i o now h p imm : Block α) i o = true := by
  unfold matchesPair admittedBlock
  rw [List.take_of_length_le (by omega), List.take_of_length_le (by omega)]
  simp [strncmpEq_refl]

theorem matchesPair_congr (b b' : Block α) (i o : List Char)
    (h1 : b'.input = b.input) (h2 : b'.output = b.output) :
    matchesPair b' i o = matchesPair b i o := by
  simp [matchesPair, h1, h2]

/-- Step 1 finds nothing when no valid block matches. -/
theorem reinforceGo_none (i o : List Char) (now : Nat) :
    ∀ mem : List (Block α),
      (∀ b ∈ mem, b.valid ≠ 0 → matchesPair b i o = false) →
      reinforceGo i o now mem = none := by
  intro mem
  induction mem with
  | nil => intro _; rfl
  | cons b rest ih =>
    intro hall
    have hb : ¬ (b.valid ≠ 0 ∧ matchesPair b i o = true) := by
      rintro ⟨h1, h2⟩
      rw [hall b (List.mem_cons_self _ _) h1] at h2
      exact Bool.false_ne_true h2
    rw [reinforceGo, if_neg (by simpa using hb),
      ih fun x hx => hall x (List.mem_cons_of_mem _ hx)]
    rfl

/-- Step 1 reinforces exactly the first matching valid block. -/
theorem reinforceGo_found (i o : List Char) (now : Nat) :
    ∀ (pre : List (Block α)) (b : Block α) (post : List (Block α)),
      (∀ x ∈ pre, x.valid ≠ 0 → matchesPair x i o = false) →
      b.valid ≠ 0 → matchesPair b i o = true →
      reinforceGo i o now (pre ++ b :: post) =
        some (pre ++ reinforcedBlock b now :: post) := by
  intro pre
  induction pre with
  | nil =>
    intro b post _ hv hm
    rw [List.nil_append, reinforceGo, if_pos (by exact ⟨hv, hm⟩)]
    rfl
  | cons a t ih =>
    intro b post hall hv hm
    have ha : ¬ (a.valid ≠ 0 ∧ matchesPair a i o = true) := by
      rintro ⟨h1, h2⟩
      rw [hall a (List.mem_cons_self _ _) h1] at h2
      exact Bool.false_ne_true h2
    rw [List.cons_append, reinforceGo, if_neg (by simpa using ha),
      ih b post (fun x hx => hall x (List.mem_cons_of_mem _ hx)) hv hm]
    rfl

/-- Step 2 admits into the first invalid slot. -/
theorem admitGo_found (i o : List Char) (now : Nat) (h : List Nat) :
    ∀ (pre : List (Block α)) (s : Block α) (post : List (Block α))
      (prev : Nat),
      (∀ x ∈ pre, x.valid ≠ 0) → s.valid = 0 →
      ∃ p, admitGo i o now h prev (pre ++ s :: post) =
        some (pre ++ admittedBlock i o now h p s.immutable :: post) := by
  intro pre
  induction pre with
  | nil =>
    intro s post prev _ hs
    refine ⟨prev, ?_⟩
    rw [List.nil_append, admitGo, if_pos hs]
    rfl
  | cons a t ih =>
    intro s post prev hall hs
    obtain ⟨p, hp⟩ := ih s post a.timestamp
      (fun x hx => hall x (List.mem_cons_of_mem _ hx)) hs
    refine ⟨p, ?_⟩
    rw [List.cons_append, admitGo,
      if_neg (hall a (List.mem_cons_self _ _)), hp]
    rfl

/-- The first invalid slot of a memory containing one. -/
theorem exists_first_invalid :
    ∀ mem : List (Block α), (∃ b ∈ mem, b.valid = 0) →
      ∃ (pre : List (Block α)) (s : Block α) (post : List (Block α)),
        mem = pre ++ s :: post ∧ (∀ x ∈ pre, x.valid ≠ 0) ∧ s.valid = 0 := by
  intro mem
  induction mem with
  | nil => rintro ⟨b, hb, _⟩; simp at hb
  | cons a t ih =>
    intro hex
    by_cases ha : a.valid = 0
    · exact ⟨[], a, t, rfl, by simp, ha⟩
    · obtain ⟨b, hb, hb0⟩ := hex
      rcases List.mem_cons.1 hb with rfl | hbt
      · exact absurd hb0 ha
      · obtain ⟨pre, s, post, hdec, hpre, hs⟩ := ih ⟨b, hbt, hb0⟩
        refine ⟨a :: pre, s, post, by rw [hdec]; rfl, ?_, hs⟩
        intro x hx
        rcases List.mem_cons.1 hx with rfl | hx'
        · exact ha
        · exact hpre x hx'

/-- Repeated reinforcement of the unique matching block: after the
    remaining calls, the block still matches, keeps confidence 1, and
    its usage counter has advanced by the number of calls (as uint32). -/
theorem learnSeq_reinforce (i o : List Char) :
    ∀ (calls : List (Nat × List Nat)) (c' : Chain ℚ)
      (pre : List (Block ℚ)) (b : Block ℚ) (post : List (Block ℚ)),
      c'.memory = pre ++ b :: post →
      (∀ x ∈ pre, x.valid ≠ 0 ∧ matchesPair x i o = false) →
      (∀ x ∈ post, x.valid ≠ 0 → matchesPair x i o = false) →
      b.valid ≠ 0 → matchesPair b i o = true → b.confidence = 1 →
      b.usage_count < 2 ^ 32 →
      ∃ bf : Block ℚ,
        (learnSeq c' i o calls).memory = pre ++ bf :: post ∧
        bf.valid = b.valid ∧ matchesPair bf i o = true ∧
        bf.confidence = 1 ∧
        bf.usage_count = (b.usage_count + calls.length) % 2 ^ 32 := by
  intro calls
  induction calls with
  | nil =>
    intro c' pre b post hmem hpre hpost hv hm hc hu
    refine ⟨b, by simpa [learnSeq] using hmem, rfl, hm, hc, ?_⟩
    simp only [List.length_nil, Nat.add_zero]
    omega
  | cons c0 rest ih =>
    intro c' pre b post hmem hpre hpost hv hm hc hu
    have hre : reinforceGo i o c0.1 c'.memory =
        some (pre ++ reinforcedBlock b c0.1 :: post) := by
      rw [hmem]
      exact reinforceGo_found i o c0.1 pre b post
        (fun x hx _ => (hpre x hx).2) hv hm
    have hlearn : fossil_jellyfish_learn c' i o c0.1 c0.2 =
        { c' with memory := pre ++ reinforcedBlock b c0.1 :: post } := by
      unfold fossil_jellyfish_learn
      rw [hre]
    have hb' : (reinforcedBlock b c0.1).confidence = 1 := by
      unfold reinforcedBlock
      simp only [hc]
      rw [if_pos (by norm_num)]
    obtain ⟨bf, h1, h2, h3, h4, h5⟩ := ih
      { c' with memory := pre ++ reinforcedBlock b c0.1 :: post }
      pre (reinforcedBlock b c0.1) post rfl hpre hpost
      (by simpa [reinforcedBlock] using hv)
      ((matchesPair_congr b (reinforcedBlock b c0.1) i o rfl rfl).trans hm)
      hb' (by simp only [reinforcedBlock]; exact Nat.mod_lt _ (by norm_num))
    refine ⟨bf, by simpa [learnSeq, hlearn] using h1,
      by simpa [reinforcedBlock] using h2, h3, h4, ?_⟩
    rw [h5]
    simp only [reinforcedBlock, List.length_cons]
    rw [Nat.mod_add_mod]
    omega

/-- Claim C3: learning the same in-capacity pair n >= 1 times (each
    call with its own clock value and hash bytes), starting from a
    chain with no valid matching block and a free slot, leaves exactly
    one valid matching block; its usage_count is n - 1 and its
    confidence is min(1.0, 1.0 + 0.1 (n - 1)) (which the cap makes
    1.0). -/
theorem claim_C3 (c : Chain ℚ) (i o : List Char)
    (calls : List (Nat × List Nat))
    (hn : 1 ≤ calls.length) (hn32 : calls.length ≤ 2 ^ 32)
    (hi : i.length < INPUT_SIZE) (ho : o.length < OUTPUT_SIZE)
    (hnom : ∀ b ∈ c.memory, b.valid ≠ 0 → matchesPair b i o = false)
    (hfree : ∃ b ∈ c.memory, b.valid = 0) :
    ∃ bf : Block ℚ,
      (learnSeq c i o calls).memory.filter
        (fun b => b.valid != 0 && matchesPair b i o) = [bf] ∧
      bf.usage_count = calls.length - 1 ∧
      bf.confidence = min 1 (1 + ((calls.length : ℚ) - 1) / 10) := by
  obtain ⟨pre, s, post, hdec, hpre, hs⟩ := exists_first_invalid c.memory hfree
  cases calls with
  | nil => simp at hn
  | cons c0 rest =>
    have hpre' : ∀ x ∈ pre, x.valid ≠ 0 ∧ matchesPair x i o = false :=
      fun x hx => ⟨hpre x hx,
        hnom x (hdec ▸ List.mem_append_left _ hx) (hpre x hx)⟩
    have hpost' : ∀ x ∈ post, x.valid ≠ 0 → matchesPair x i o = false :=
      fun x hx => hnom x
        (hdec ▸ List.mem_append_right _ (List.mem_cons_of_mem _ hx))
    have hre0 : reinforceGo i o c0.1 c.memory = none :=
      reinforceGo_none i o c0.1 c.memory hnom
    obtain ⟨p, hp⟩ := admitGo_found i o c0.1 c0.2 pre s post 0 hpre hs
    have hadm : admitGo i o c0.1 c0.2 0 c.memory =
        some (pre ++ admittedBlock i o c0.1 c0.2 p s.immutable :: post) := by
      rw [hdec]; exact hp
    have hlearn1 : (fossil_jellyfish_learn c i o c0.1 c0.2).memory =
        pre ++ admittedBlock i o c0.1 c0.2 p s.immutable :: post := by
      unfold fossil_jellyfish_learn
      rw [hre0, hadm]
    obtain ⟨bf, h1, h2, h3, h4, h5⟩ := learnSeq_reinforce i o rest
      (fossil_jellyfish_learn c i o c0.1 c0.2) pre
      (admittedBlock i o c0.1 c0.2 p s.immutable) post hlearn1 hpre' hpost'
      (by simp [admittedBlock]) (matchesPair_admitted i o c0.1 c0.2 p _ hi ho)
      (by simp [admittedBlock]) (by simp [admittedBlock])
    have hrest32 : rest.length < 2 ^ 32 := by
      have := hn32
      simp [List.length_cons] at this
      omega
    refine ⟨bf, ?_, ?_, ?_⟩
    · have hmem : (learnSeq c i o (c0 :: rest)).memory = pre ++ bf :: post := by
        simpa [learnSeq] using h1
      rw [hmem, List.filter_append, List.filter_cons_of_pos
        (by rw [h2]; simp [admittedBlock, h3])]
      rw [List.filter_eq_nil.2 (fun x hx => by
        rcases (hpre' x hx) with ⟨hv, hmf⟩
        simp [hv, hmf]), List.filter_eq_nil.2 (fun x hx => by
        by_cases hxv : x.valid = 0
        · simp [hxv]
        · simp [hxv, hpost' x hx hxv])]
      rfl
    · rw [h5]
      simp only [admittedBlock, Nat.zero_add, List.length_cons]
      rw [Nat.mod_eq_of_lt hrest32]
      simp
    · rw [h4, eq_comm, min_eq_left]
      have h1le : (1 : ℚ) ≤ ((c0 :: rest).length : ℚ) := by
        exact_mod_cast hn
      nlinarith


/-! ### Claim C8: the fuzzy fallback of reason -/

/-- The exact phase finds nothing when no valid block's input equals
    the query under truncated compare. -/
theorem reasonExactGo_none (q : List Char) :
    ∀ mem : List (Block ℚ),
      (∀ b ∈ mem, b.valid ≠ 0 → strncmpEq INPUT_SIZE b.input q = false) →
      reasonExactGo q mem = none := by
  intro mem
  induction mem with
  | nil => intro _; rfl
  | cons b rest ih =>
    intro hall
    have hb : ¬ (b.valid ≠ 0 ∧ strncmpEq INPUT_SIZE b.input q = true) := by
      rintro ⟨h1, h2⟩
      rw [hall b (List.mem_cons_self _ _) h1] at h2
      exact Bool.false_ne_true h2
    rw [reasonExactGo, if_neg (by simpa using hb),
      ih fun x hx => hall x (List.mem_cons_of_mem _ hx)]
    rfl

/-- The query is at most the score plus the candidate length: each
    common-prefix position contributes at least 0 and each leftover
    query character contributes 1. -/
theorem length_le_similarity_add :
    ∀ a s : List Char,
      a.length ≤ fossil_jellyfish_similarity a s + s.length := by
  intro a
  induction a with
  | nil => intro s; simp
  | cons x xs ih =>
    intro s
    cases s with
    | nil => simp [fossil_jellyfish_similarity]
    | cons y ys =>
      have := ih ys
      simp only [fossil_jellyfish_similarity, List.length_cons]
      by_cases hxy : asciiToLower x = asciiToLower y <;> simp [hxy] <;> omega

theorem validScores_cons_valid (q : List Char) (b : Block ℚ)
    (bs : List (Block ℚ)) (hv : (b.valid != 0) = true) :
    validScores q (b :: bs) =
      fossil_jellyfish_similarity q b.input :: validScores q bs := by
  simp [validScores, List.filter_cons, hv]

theorem validScores_cons_invalid (q : List Char) (b : Block ℚ)
    (bs : List (Block ℚ)) (hv : (b.valid != 0) = false) :
    validScores q (b :: bs) = validScores q bs := by
  simp [validScores, List.filter_cons, hv]

/-- When every valid candidate scores at least `best`, the fuzzy loop
    never updates and ends with the threshold test on `best`. -/
theorem fuzzyGo_ge (q : List Char) :
    ∀ (bs : List (Block ℚ)) (best : Nat) (out : List Char),
      1 ≤ best →
      (∀ b ∈ bs, b.valid ≠ 0 →
        best ≤ fossil_jellyfish_similarity q b.input) →
      fuzzyGo q bs best out =
        if q.length / 2 < best then unknownOut else out := by
  intro bs
  induction bs with
  | nil => intro best out _ _; rfl
  | cons b rest ih =>
    intro best out hb hall
    by_cases hv : b.valid = 0
    · rw [fuzzyGo, if_neg (by simpa using hv)]
      exact ih best out hb fun x hx => hall x (List.mem_cons_of_mem _ hx)
    · have hsc : best ≤ fossil_jellyfish_similarity q b.input :=
        hall b (List.mem_cons_self _ _) hv
      rw [fuzzyGo, if_pos hv]
      simp only
      rw [if_neg (by omega), if_neg (by omega)]
      exact ih best out hb fun x hx => hall x (List.mem_cons_of_mem _ hx)

/-- The fuzzy loop with a strictly improvable best: it ends either in
    the sentinel (when the minimum exceeds the threshold) or in the
    output of a minimal-score valid block. -/
theorem fuzzyGo_min (q : List Char) :
    ∀ (bs : List (Block ℚ)) (best : Nat) (out : List Char) (S : Nat),
      1 ≤ best → S ∈ validScores q bs →
      (∀ t ∈ validScores q bs, S ≤ t) → S < best →
      (q.length / 2 < S → fuzzyGo q bs best out = unknownOut) ∧
      (S ≤ q.length / 2 → ∃ b ∈ bs, b.valid ≠ 0 ∧
        fossil_jellyfish_similarity q b.input = S ∧
        fuzzyGo q bs best out = b.output) := by
  intro bs
  induction bs with
  | nil =>
    intro best out S _ hS _ _
    simp [validScores] at hS
  | cons b rest ih =>
    intro best out S hb hS hSmin hSb
    by_cases hv : b.valid = 0
    · have hv' : (b.valid != 0) = false := by simpa using hv
      rw [validScores_cons_invalid q b rest hv'] at hS hSmin
      rw [fuzzyGo, if_neg (by simpa using hv)]
      obtain ⟨h1, h2⟩ := ih best out S hb hS hSmin hSb
      refine ⟨h1, fun hle => ?_⟩
      obtain ⟨b', hb', hrest⟩ := h2 hle
      exact ⟨b', List.mem_cons_of_mem _ hb', hrest⟩
    · have hv' : (b.valid != 0) = true := by simpa using hv
      rw [validScores_cons_valid q b rest hv'] at hS hSmin
      have hSle : S ≤ fossil_jellyfish_similarity q b.input :=
        hSmin _ (List.mem_cons_self _ _)
      rw [fuzzyGo, if_pos hv]
      simp only
      by_cases hs0 : fossil_jellyfish_similarity q b.input = 0
      · rw [if_pos hs0]
        have hS0 : S = 0 := by omega
        refine ⟨fun h => by omega, fun _ => ?_⟩
        exact ⟨b, List.mem_cons_self _ _, hv, by omega, rfl⟩
      · rw [if_neg hs0]
        by_cases hslt : fossil_jellyfish_similarity q b.input < best
        · rw [if_pos hslt]
          by_cases hSs : S = fossil_jellyfish_similarity q b.input
          · have hall : ∀ x ∈ rest, x.valid ≠ 0 →
                fossil_jellyfish_similarity q b.input ≤
                  fossil_jellyfish_similarity q x.input := by
              intro x hx hxv
              have : fossil_jellyfish_similarity q x.input ∈
                  validScores q rest := by
                simp [validScores]
                exact ⟨x, ⟨hx, by simpa using hxv⟩, rfl⟩
              have := hSmin _ (List.mem_cons_of_mem _ this)
              omega
            rw [fuzzyGo_ge q rest _ _ (by omega) hall]
            constructor
            · intro hT
              rw [if_pos (by omega)]
            · intro hT
              refine ⟨b, List.mem_cons_self _ _, hv, hSs.symm, ?_⟩
              rw [if_neg (by omega)]
          · have hSs' : S < fossil_jellyfish_similarity q b.input := by
              omega
            have hSrest : S ∈ validScores q rest := by
              rcases List.mem_cons.1 hS with h | h
              · omega
              · exact h
            obtain ⟨h1, h2⟩ := ih (fossil_jellyfish_similarity q b.input)
              b.output S (by omega) hSrest
              (fun t ht => hSmin t (List.mem_cons_of_mem _ ht)) hSs'
            refine ⟨h1, fun hle => ?_⟩
            obtain ⟨b', hb', hrest⟩ := h2 hle
            exact ⟨b', List.mem_cons_of_mem _ hb', hrest⟩
        · rw [if_neg hslt]
          have hSs' : S ≠ fossil_jellyfish_similarity q b.input := by omega
          have hSrest : S ∈ validScores q rest := by
            rcases List.mem_cons.1 hS with h | h
            · omega
            · exact h
          obtain ⟨h1, h2⟩ := ih best out S hb hSrest
            (fun t ht => hSmin t (List.mem_cons_of_mem _ ht)) hSb
          refine ⟨h1, fun hle => ?_⟩
          obtain ⟨b', hb', hrest⟩ := h2 hle
          exact ⟨b', List.mem_cons_of_mem _ hb', hrest⟩

/-- Claim C8: with no exact match among the valid blocks of the
    scanned region (and block inputs within their field capacity, as
    the chain operations keep them), reason's fuzzy fallback returns
    the sentinel exactly when the minimal positional score S exceeds
    half the query length, and otherwise the output of a valid block
    attaining S. -/
theorem claim_C8 (c : Chain ℚ) (q : List Char)
    (hcap : ∀ b ∈ c.memory.take c.count, b.valid ≠ 0 →
      b.input.length < INPUT_SIZE)
    (hnoex : ∀ b ∈ c.memory.take c.count, b.valid ≠ 0 →
      strncmpEq INPUT_SIZE b.input q = false)
    (S : Nat) (hS : S ∈ validScores q (c.memory.take c.count))
    (hSmin : ∀ t ∈ validScores q (c.memory.take c.count), S ≤ t) :
    (q.length / 2 < S → (fossil_jellyfish_reason c q).1 = unknownOut) ∧
    (S ≤ q.length / 2 → ∃ b ∈ c.memory.take c.count, b.valid ≠ 0 ∧
      fossil_jellyfish_similarity q b.input = S ∧
      (fossil_jellyfish_reason c q).1 = b.output) := by
  have hre : reasonExactGo q (c.memory.take c.count) = none :=
    reasonExactGo_none q _ hnoex
  have hrw : (fossil_jellyfish_reason c q).1 =
      fuzzyGo q (c.memory.take c.count) 1000 unknownOut := by
    unfold fossil_jellyfish_reason
    rw [hre]
  rw [hrw]
  by_cases hlt : S < 1000
  · exact fuzzyGo_min q (c.memory.take c.count) 1000 unknownOut S
      (by omega) hS hSmin hlt
  · obtain ⟨b0, hb0mem, hb0⟩ : ∃ b ∈ c.memory.take c.count,
        (b.valid != 0) = true ∧ fossil_jellyfish_similarity q b.input = S := by
      simp only [validScores, List.mem_map, List.mem_filter] at hS
      obtain ⟨b, ⟨hmem, hval⟩, hsim⟩ := hS
      exact ⟨b, hmem, hval, hsim⟩
    have hb0v : b0.valid ≠ 0 := by simpa using hb0.1
    have hql : q.length ≤ S + b0.input.length := by
      have := length_le_similarity_add q b0.input
      omega
    have hcap0 : b0.input.length < INPUT_SIZE := hcap b0 hb0mem hb0v
    have hge : ∀ x ∈ c.memory.take c.count, x.valid ≠ 0 →
        (1000 : Nat) ≤ fossil_jellyfish_similarity q x.input := by
      intro x hx hxv
      have : fossil_jellyfish_similarity q x.input ∈
          validScores q (c.memory.take c.count) := by
        simp [validScores]
        exact ⟨x, ⟨hx, by simpa using hxv⟩, rfl⟩
      have := hSmin _ this
      omega
    rw [fuzzyGo_ge q _ _ _ (by omega) hge]
    constructor
    · intro _
      by_cases hT : q.length / 2 < 1000
      · rw [if_pos hT]
      · rw [if_neg hT]
    · intro hle
      exfalso
      have hIN : INPUT_SIZE = 128 := rfl
      omega


/-! ### Witnesses for C3 and C8 -/

/-- Witness for C3: learning (cat, meow) twice on a fresh chain leaves
    exactly one matching valid block. -/
theorem claim_C3_witness :
    ((learnSeq zChain ("cat".data) ("meow".data)
        [(5, exHash), (6, exHash)]).memory.filter
      (fun b => b.valid != 0 &&
        matchesPair b ("cat".data) ("meow".data))).length = 1 := by
  obtain ⟨bf, hf, _, _⟩ := claim_C3 zChain ("cat".data) ("meow".data)
    [(5, exHash), (6, exHash)] (by decide) (by decide) (by decide)
    (by decide) (by decide) (by decide)
  rw [hf]
  rfl

/-- Witness for C8 at the S2 chain: the minimal score of "elephant" is
    8, above half its length, so reason answers the sentinel. -/
theorem claim_C8_witness :
    (fossil_jellyfish_reason witC8Chain ("elephant".data)).1 =
      unknownOut :=
  (claim_C8 witC8Chain ("elephant".data) (by decide) (by decide) 8
    (by decide) (by decide)).1 (by decide)

/-! ### Claim C4 amended: the confidence range along operation
    sequences -/

theorem getD_mem_or {β : Type} (l : List β) (i : Nat) (d : β) :
    l.getD i d ∈ l ∨ l.getD i d = d := by
  by_cases h : i < l.length
  · exact Or.inl (getD_mem l i d h)
  · exact Or.inr (List.getD_eq_default l d (by omega))

theorem memInv_zero : (0 : ℝ) ≤ (zeroBlock : Block ℝ).confidence ∧
    (zeroBlock : Block ℝ).confidence < 21 / 20 := by
  constructor <;> norm_num [zeroBlock]

theorem reinforcedBlock_inv (b : Block ℝ) (now : Nat)
    (h : 0 ≤ b.confidence ∧ b.confidence < 21 / 20) :
    0 ≤ (reinforcedBlock b now).confidence ∧
      (reinforcedBlock b now).confidence < 21 / 20 := by
  unfold reinforcedBlock
  simp only
  by_cases h1 : (1 : ℝ) < b.confidence + 1 / 10
  · rw [if_pos h1]
    norm_num
  · rw [if_neg h1]
    constructor <;> [linarith [h.1]; linarith [not_lt.1 h1]]

theorem reinforceGo_inv (i o : List Char) (now : Nat) :
    ∀ mem mem' : List (Block ℝ), MemInv mem →
      reinforceGo i o now mem = some mem' → MemInv mem' := by
  intro mem
  induction mem with
  | nil => intro mem' _ h; simp [reinforceGo] at h
  | cons b rest ih =>
    intro mem' hinv h
    rw [reinforceGo] at h
    split at h
    · cases h
      intro x hx
      rcases List.mem_cons.1 hx with rfl | hx'
      · exact reinforcedBlock_inv b now (hinv b (List.mem_cons_self _ _))
      · exact hinv x (List.mem_cons_of_mem _ hx')
    · rcases Option.map_eq_some'.1 h with ⟨rest', hr, hmap⟩
      subst hmap
      intro x hx
      rcases List.mem_cons.1 hx with rfl | hx'
      · exact hinv x (List.mem_cons_self _ _)
      · exact ih rest'
          (fun y hy => hinv y (List.mem_cons_of_mem _ hy)) hr x hx'

theorem admitGo_inv (i o : List Char) (now : Nat) (h : List Nat) :
    ∀ (prev : Nat) (mem mem' : List (Block ℝ)), MemInv mem →
      admitGo i o now h prev mem = some mem' → MemInv mem' := by
  intro prev mem
  induction mem generalizing prev with
  | nil => intro mem' _ hh; simp [admitGo] at hh
  | cons b rest ih =>
    intro mem' hinv hh
    rw [admitGo] at hh
    split at hh
    · cases hh
      intro x hx
      rcases List.mem_cons.1 hx with rfl | hx'
      · constructor <;> norm_num [admittedBlock]
      · exact hinv x (List.mem_cons_of_mem _ hx')
    · rcases Option.map_eq_some'.1 hh with ⟨rest', hr, hmap⟩
      subst hmap
      intro x hx
      rcases List.mem_cons.1 hx with rfl | hx'
      · exact hinv x (List.mem_cons_self _ _)
      · exact ih b.timestamp rest'
          (fun y hy => hinv y (List.mem_cons_of_mem _ hy)) hr x hx'

theorem cleanup_inv (c : Chain ℝ) (hinv : ConfInv c) :
    ConfInv (fossil_jellyfish_cleanup c) := by
  rw [ConfInv, cleanup_eq]
  intro x hx
  simp only at hx
  rcases List.mem_append.1 hx with hx' | hx'
  · exact hinv x (List.mem_of_mem_filter hx')
  · obtain ⟨y, hy, hxy⟩ := List.mem_map.1 hx'
    subst hxy
    unfold trB
    by_cases hk : keepB y = true
    · rw [if_pos hk]
      exact hinv y (List.drop_subset _ _ hy)
    · rw [if_neg hk]
      exact memInv_zero

theorem mem_removeShift (mem : List (Block ℝ)) (i count : Nat)
    (x : Block ℝ) (hx : x ∈ removeShift mem i count) : x ∈ mem := by
  unfold removeShift at hx
  rcases List.mem_append.1 hx with h | h
  · rcases List.mem_append.1 h with h' | h'
    · exact List.take_subset _ _ h'
    · exact List.drop_subset _ _ (List.take_subset _ _ h')
  · exact List.drop_subset _ _ h

theorem pruneAux_mem (m : ℝ) :
    ∀ (fuel i count : Nat) (mem : List (Block ℝ)) (pr : Nat)
      (x : Block ℝ), x ∈ (pruneAux m fuel i count mem pr).1 → x ∈ mem := by
  intro fuel
  induction fuel with
  | zero => intro i count mem pr x hx; simpa [pruneAux] using hx
  | succ fuel ih =>
    intro i count mem pr x hx
    rw [pruneAux] at hx
    split at hx
    · split at hx
      · exact mem_removeShift _ _ _ _ (ih _ _ _ _ _ hx)
      · exact ih _ _ _ _ _ hx
    · simpa using hx

theorem dedupeInner_mem :
    ∀ (i fuel j count : Nat) (mem : List (Block ℝ)) (rem : Nat)
      (x : Block ℝ),
      x ∈ (dedupeInner i fuel j count mem rem).1 → x ∈ mem := by
  intro i fuel
  induction fuel with
  | zero => intro j count mem rem x hx; simpa [dedupeInner] using hx
  | succ fuel ih =>
    intro j count mem rem x hx
    rw [dedupeInner] at hx
    split at hx
    · split at hx
      · exact mem_removeShift _ _ _ _ (ih _ _ _ _ _ hx)
      · exact ih _ _ _ _ _ hx
    · simpa using hx

theorem dedupeOuter_mem :
    ∀ (fuel i count : Nat) (mem : List (Block ℝ)) (rem : Nat)
      (x : Block ℝ),
      x ∈ (dedupeOuter fuel i count mem rem).1 → x ∈ mem := by
  intro fuel
  induction fuel with
  | zero => intro i count mem rem x hx; simpa [dedupeOuter] using hx
  | succ fuel ih =>
    intro i count mem rem x hx
    rw [dedupeOuter] at hx
    split at hx
    · exact dedupeInner_mem _ _ _ _ _ _ _ (ih _ _ _ _ _ hx)
    · simpa using hx

theorem mem_swapAt (mem : List (Block ℝ)) (i j : Nat) (x : Block ℝ)
    (hx : x ∈ swapAt mem i j) : x ∈ mem ∨ x = zeroBlock := by
  unfold swapAt at hx
  rcases List.mem_or_eq_of_mem_set hx with hx' | hx'
  · rcases List.mem_or_eq_of_mem_set hx' with hx'' | hx''
    · exact Or.inl hx''
    · subst hx''
      rcases getD_mem_or mem j zeroBlock with h | h
      · exact Or.inl h
      · exact Or.inr h
  · subst hx'
    rcases getD_mem_or mem i zeroBlock with h | h
    · exact Or.inl h
    · exact Or.inr h

theorem innerSortGo_mem (i count : Nat) :
    ∀ (fuel j : Nat) (mem : List (Block ℝ)) (x : Block ℝ),
      x ∈ innerSortGo i count fuel j mem → x ∈ mem ∨ x = zeroBlock := by
  intro fuel
  induction fuel with
  | zero => intro j mem x hx; exact Or.inl (by simpa [innerSortGo] using hx)
  | succ fuel ih =>
    intro j mem x hx
    rw [innerSortGo] at hx
    split at hx
    · rcases ih _ _ _ hx with h | h
      · split at h
        · rcases mem_swapAt _ _ _ _ h with h' | h'
          · exact Or.inl h'
          · exact Or.inr h'
        · exact Or.inl h
      · exact Or.inr h
    · exact Or.inl (by simpa using hx)

theorem outerSortGo_mem (count : Nat) :
    ∀ (fuel i : Nat) (mem : List (Block ℝ)) (x : Block ℝ),
      x ∈ outerSortGo count fuel i mem → x ∈ mem ∨ x = zeroBlock := by
  intro fuel
  induction fuel with
  | zero => intro i mem x hx; exact Or.inl (by simpa [outerSortGo] using hx)
  | succ fuel ih =>
    intro i mem x hx
    rw [outerSortGo] at hx
    split at hx
    · rcases ih _ _ _ hx with h | h
      · rcases innerSortGo_mem _ _ _ _ _ _ h with h' | h'
        · exact Or.inl h'
        · exact Or.inr h'
      · exact Or.inr h
    · exact Or.inl (by simpa using hx)

theorem compactAux_mem (count : Nat) :
    ∀ (fuel i new moved : Nat) (mem : List (Block ℝ)) (x : Block ℝ),
      x ∈ (compactAux count fuel i new moved mem).1 →
        x ∈ mem ∨ x = zeroBlock := by
  intro fuel
  induction fuel with
  | zero =>
    intro i new moved mem x hx
    exact Or.inl (by simpa [compactAux] using hx)
  | succ fuel ih =>
    intro i new moved mem x hx
    rw [compactAux] at hx
    split at hx
    · split at hx
      · split at hx
        · rcases ih _ _ _ _ _ hx with h | h
          · rcases List.mem_or_eq_of_mem_set h with h' | h'
            · exact Or.inl h'
            · subst h'
              rcases getD_mem_or mem i zeroBlock with h'' | h''
              · exact Or.inl h''
              · exact Or.inr h''
          · exact Or.inr h
        · exact ih _ _ _ _ _ hx
      · exact ih _ _ _ _ _ hx
    · exact Or.inl (by simpa using hx)

theorem zeroFill_mem (count : Nat) :
    ∀ (fuel k : Nat) (mem : List (Block ℝ)) (x : Block ℝ),
      x ∈ zeroFill count fuel k mem → x ∈ mem ∨ x = zeroBlock := by
  intro fuel
  induction fuel with
  | zero => intro k mem x hx; exact Or.inl (by simpa [zeroFill] using hx)
  | succ fuel ih =>
    intro k mem x hx
    rw [zeroFill] at hx
    split at hx
    · rcases ih _ _ _ hx with h | h
      · rcases List.mem_or_eq_of_mem_set h with h' | h'
        · exact Or.inl h'
        · exact Or.inr h'
      · exact Or.inr h
    · exact Or.inl (by simpa using hx)

theorem decayBlock_inv (r : ℝ) (now : Nat) (b : Block ℝ)
    (h : 0 ≤ b.confidence ∧ b.confidence < 21 / 20) :
    0 ≤ (decayBlock r now b).confidence ∧
      (decayBlock r now b).confidence < 21 / 20 := by
  unfold decayBlock
  by_cases h0 : b.valid = 0
  · rw [if_pos h0]; exact h
  · rw [if_neg h0]
    by_cases hage : (now : Int) - ((b.timestamp / 1000 : Nat) : Int) ≤ 0
    · rw [if_pos hage]; exact h
    · rw [if_neg hage]
      simp only
      constructor
      · exact le_max_left _ _
      · have : min (b.confidence *
            Real.rpow (1 / 2)
              ((((now : Int) - ((b.timestamp / 1000 : Nat) : Int) : Int) : ℝ) /
                max 1 r)) 1 ≤ 1 := min_le_right _ _
        have h21 : (1 : ℝ) < 21 / 20 := by norm_num
        calc max 0 (min (b.confidence * _) 1) ≤ max 0 1 :=
              max_le_max le_rfl this
          _ = 1 := by norm_num
          _ < 21 / 20 := h21

theorem reasonExactGo_inv (q : List Char) :
    ∀ mem mem' : List (Block ℝ), MemInv mem →
      ∀ out, reasonExactGo q mem = some (mem', out) → MemInv mem' := by
  intro mem
  induction mem with
  | nil => intro mem' _ out h; simp [reasonExactGo] at h
  | cons b rest ih =>
    intro mem' hinv out h
    rw [reasonExactGo] at h
    split at h
    · cases h
      intro x hx
      rcases List.mem_cons.1 hx with rfl | hx'
      · obtain ⟨h0, h1⟩ := hinv b (List.mem_cons_self _ _)
        simp only
        by_cases hc : b.confidence < 1
        · rw [if_pos hc]
          constructor <;> linarith
        · rw [if_neg hc]
          exact ⟨h0, h1⟩
      · exact hinv x (List.mem_cons_of_mem _ hx')
    · rcases Option.map_eq_some'.1 h with ⟨⟨rest', out'⟩, hr, hmap⟩
      cases hmap
      intro x hx
      rcases List.mem_cons.1 hx with rfl | hx'
      · exact hinv x (List.mem_cons_self _ _)
      · exact ih rest'
          (fun y hy => hinv y (List.mem_cons_of_mem _ hy)) out' hr x hx'

theorem learn_inv (c : Chain ℝ) (i o : List Char) (now : Nat)
    (h : List Nat) (hinv : ConfInv c) :
    ConfInv (fossil_jellyfish_learn c i o now h) := by
  unfold fossil_jellyfish_learn
  rcases hre : reinforceGo i o now c.memory with _ | mem'
  · rcases had : admitGo i o now h 0 c.memory with _ | mem'
    · rcases had2 : admitGo i o now h 0
          (fossil_jellyfish_cleanup c).memory with _ | mem'
      · simp only [hre, had, had2]
        exact cleanup_inv c hinv
      · simp only [hre, had, had2]
        exact admitGo_inv i o now h 0 _ _ (cleanup_inv c hinv) had2
    · simp only [hre, had]
      exact admitGo_inv i o now h 0 _ _ hinv had
  · simp only [hre]
    exact reinforceGo_inv i o now _ _ hinv hre

theorem reason_inv (c : Chain ℝ) (q : List Char) (hinv : ConfInv c) :
    ConfInv (fossil_jellyfish_reason c q).2 := by
  unfold fossil_jellyfish_reason
  rcases hre : reasonExactGo q (c.memory.take c.count) with _ | r
  · exact hinv
  · simp only
    intro x hx
    rcases List.mem_append.1 hx with hx' | hx'
    · exact reasonExactGo_inv q (c.memory.take c.count) r.1
        (fun y hy => hinv y (List.take_subset _ _ hy)) r.2
        (by rw [hre]) x hx'
    · exact hinv x (List.drop_subset _ _ hx')

theorem decay_inv (c : Chain ℝ) (r : ℝ) (now : Nat) (hinv : ConfInv c) :
    ConfInv (fossil_jellyfish_decay_confidence c r now) := by
  unfold fossil_jellyfish_decay_confidence
  split
  · exact hinv
  · intro x hx
    rcases List.mem_append.1 hx with hx' | hx'
    · obtain ⟨y, hy, hxy⟩ := List.mem_map.1 hx'
      subst hxy
      exact decayBlock_inv r now y (hinv y (List.take_subset _ _ hy))
    · exact hinv x (List.drop_subset _ _ hx')

theorem prune_inv (c : Chain ℝ) (m : ℝ) (hinv : ConfInv c) :
    ConfInv (fossil_jellyfish_prune_chain c m).1 := by
  unfold fossil_jellyfish_prune_chain
  split
  · exact hinv
  · intro x hx
    exact hinv x (pruneAux_mem m c.count 0 c.count c.memory 0 x hx)

theorem dedupe_inv (c : Chain ℝ) (hinv : ConfInv c) :
    ConfInv (fossil_jellyfish_deduplicate_chain c).1 := by
  unfold fossil_jellyfish_deduplicate_chain
  split
  · exact hinv
  · intro x hx
    exact hinv x (dedupeOuter_mem c.count 0 c.count c.memory 0 x hx)

theorem trim_inv (c : Chain ℝ) (maxBlocks : Nat) (hinv : ConfInv c) :
    ConfInv (fossil_jellyfish_trim c maxBlocks).1 := by
  unfold fossil_jellyfish_trim
  split
  · exact hinv
  · intro x hx
    rcases outerSortGo_mem c.count c.count 0 c.memory x hx with h | h
    · exact hinv x h
    · rw [h]; exact memInv_zero

theorem compact_inv (c : Chain ℝ) (hinv : ConfInv c) :
    ConfInv (fossil_jellyfish_chain_compact c).1 := by
  unfold fossil_jellyfish_chain_compact
  intro x hx
  simp only at hx
  rcases zeroFill_mem c.count c.count _ _ x hx with h | h
  · rcases compactAux_mem c.count c.count 0 0 0 c.memory x h with h' | h'
    · exact hinv x h'
    · rw [h']; exact memInv_zero
  · rw [h]; exact memInv_zero

theorem chainStep_inv (c c' : Chain ℝ) (hinv : ConfInv c)
    (hstep : ChainStep c c') : ConfInv c' := by
  cases hstep with
  | learn i o now h => exact learn_inv c i o now h hinv
  | reason q => exact reason_inv c q hinv
  | decay r now => exact decay_inv c r now hinv
  | cleanup => exact cleanup_inv c hinv
  | prune m => exact prune_inv c m hinv
  | dedupe => exact dedupe_inv c hinv
  | trim maxBlocks => exact trim_inv c maxBlocks hinv
  | compact => exact compact_inv c hinv

/-- Claim C4 amended: along every sequence of public operations
    (learn, reason, decay, cleanup, prune, trim, dedupe, compact), the
    confidence of every block stays in [0, 1.05).  The claimed upper
    bound of 1.0 fails: a successful exact-match reason adds 0.05
    without clamping whenever confidence < 1.0 and can reach up to
    (but not including) 1.05 — see the counterexample; every other
    operation keeps confidences at most 1.0. -/
theorem claim_C4_amended (c c' : Chain ℝ) (hinv : ConfInv c)
    (hs : Relation.ReflTransGen ChainStep c c') : ConfInv c' := by
  induction hs with
  | refl => exact hinv
  | tail _ hstep ih => exact chainStep_inv _ _ ih hstep

/-- Witness for the amended C4: one cleanup step from a concrete chain
    keeps the front block's confidence in range. -/
theorem claim_C4_amended_witness :
    0 ≤ ((fossil_jellyfish_cleanup cexC9Chain).memory.getD 0
        zeroBlock).confidence ∧
    ((fossil_jellyfish_cleanup cexC9Chain).memory.getD 0
        zeroBlock).confidence < 21 / 20 := by
  have hinv : ConfInv cexC9Chain := by
    intro b hb
    simp only [cexC9Chain, oneBlockChain] at hb
    rcases List.mem_cons.1 hb with rfl | hb'
    · constructor <;> norm_num [simpleBlock, zeroBlock]
    · rw [List.eq_of_mem_replicate hb']
      exact memInv_zero
  have h := claim_C4_amended cexC9Chain (fossil_jellyfish_cleanup cexC9Chain)
    hinv (Relation.ReflTransGen.single (ChainStep.cleanup _))
  apply h
  apply getD_mem
  rw [cleanup_eq]
  simp only [List.length_append, List.length_map, List.length_drop]
  have : (cexC9Chain.memory.filter keepB).length ≤ cexC9Chain.memory.length :=
    List.length_filter_le _ _
  have hlen : cexC9Chain.memory.length = 256 := by
    simp [cexC9Chain, oneBlockChain, List.length_replicate]
    norm_num [MAX_MEM]
  omega

end Jellyfish
